import Mathlib
set_option maxRecDepth 40000

/-!
Verification of the range-list repository: a self-balancing AVL tree
(`AVLTree`) and an interval-accumulator (`RangeList`) built on top of it.
Keys and intensity values are modelled as rationals (the source uses
finite JS numbers).  Every definition below is a direct transcription of
the corresponding source function.
-/
/-- A node of the AVL tree: `{ key, value, height, left, right }`, with
`nil` playing the role of JS `null`.  The tree itself is identified with
its root pointer. -/
inductive AVLTree where
  | nil : AVLTree
  | node (key value : ℚ) (height : Nat) (left right : AVLTree) : AVLTree
deriving DecidableEq, Repr

namespace AVLTree

/-- Source `_getHeight`: cached height, `0` for an absent child. -/
def getHeight : AVLTree → Nat
  | .nil => 0
  | .node _ _ h _ _ => h

/-- Source `_getBalanceFactor`: `height(left) - height(right)` from the cached
heights, `0` for an absent node. -/
def getBalanceFactor : AVLTree → Int
  | .nil => 0
  | .node _ _ _ l r => (getHeight l : Int) - (getHeight r : Int)

/-- Source `_rotateRight(y)`: pivot `x = y.left` up, recomputing first `y`'s
then `x`'s height.  The fallback arm is unreachable in the source (JS would
dereference `null`); it is never exercised under the AVL invariant. -/
def rotateRight : AVLTree → AVLTree
  | .node yk yv _ (.node xk xv _ xl xr) yr =>
      let y2 := AVLTree.node yk yv (1 + max (getHeight xr) (getHeight yr)) xr yr
      AVLTree.node xk xv (1 + max (getHeight xl) (getHeight y2)) xl y2
  | t => t

/-- Source `_rotateLeft(x)`: pivot `y = x.right` up, recomputing first `x`'s
then `y`'s height.  Fallback arm as in `rotateRight`. -/
def rotateLeft : AVLTree → AVLTree
  | .node xk xv _ xl (.node yk yv _ yl yr) =>
      let x2 := AVLTree.node xk xv (1 + max (getHeight xl) (getHeight yl)) xl yl
      AVLTree.node yk yv (1 + max (getHeight x2) (getHeight yr)) x2 yr
  | t => t

/-- Source `_balance`: single or double rotation decided by the cached
balance factors. -/
def balance (t : AVLTree) : AVLTree :=
  if getBalanceFactor t > 1 then
    match t with
    | .node k v h l r =>
        if getBalanceFactor l < 0 then rotateRight (.node k v h (rotateLeft l) r)
        else rotateRight (.node k v h l r)
    | .nil => .nil
  else if getBalanceFactor t < -1 then
    match t with
    | .node k v h l r =>
        if getBalanceFactor r > 0 then rotateLeft (.node k v h l (rotateRight r))
        else rotateLeft (.node k v h l r)
    | .nil => .nil
  else t

/-- The common tail of `_insertNode` / `_removeNode`: recompute the height
from the children, then `_balance`. -/
def rebalanceAfter : AVLTree → AVLTree
  | .nil => .nil
  | .node k v _ l r => balance (.node k v (1 + max (getHeight l) (getHeight r)) l r)

/-- Source `_insertNode`: BST insert (overwriting the value on an equal key,
with an early return skipping the height update), then rebalance. -/
def insertNode : AVLTree → ℚ → ℚ → AVLTree
  | .nil, k, v => .node k v 1 .nil .nil
  | .node nk nv nh l r, k, v =>
      if k < nk then rebalanceAfter (.node nk nv nh (insertNode l k v) r)
      else if k > nk then rebalanceAfter (.node nk nv nh l (insertNode r k v))
      else .node nk v nh l r

/-- Source `insert`. -/
def insert (t : AVLTree) (k v : ℚ) : AVLTree := insertNode t k v

/-- Source `_findMinNode`: follow `left` links.  The `nil` arm is unreachable
in the source (it is only ever called on a non-empty subtree). -/
def findMin : AVLTree → ℚ × ℚ
  | .nil => (0, 0)
  | .node k v _ .nil _ => (k, v)
  | .node _ _ _ (.node lk lv lh ll lr) _ => findMin (.node lk lv lh ll lr)

/-- Source `_removeNode`: BST delete (two-children case copies the in-order
successor and deletes it from the right subtree), then rebalance. -/
def removeNode : AVLTree → ℚ → AVLTree
  | .nil, _ => .nil
  | .node nk nv nh l r, k =>
      rebalanceAfter
        (if k < nk then .node nk nv nh (removeNode l k) r
         else if k > nk then .node nk nv nh l (removeNode r k)
         else
           match l, r with
           | .nil, _ => r
           | _, .nil => l
           | _, _ =>
               .node (findMin r).1 (findMin r).2 nh l (removeNode r (findMin r).1))

/-- Source `remove`. -/
def remove (t : AVLTree) (k : ℚ) : AVLTree := removeNode t k

/-- Source `_findNode` / `find`: exact-key lookup, returned as the node's
`(key, value)` pair. -/
def find : AVLTree → ℚ → Option (ℚ × ℚ)
  | .nil, _ => none
  | .node nk nv _ l r, k =>
      if k = nk then some (nk, nv)
      else if k < nk then find l k else find r k

/-- Source `update`: `find` the node and overwrite its value in place;
no-op when the key is absent. -/
def update : AVLTree → ℚ → ℚ → AVLTree
  | .nil, _, _ => .nil
  | .node nk nv nh l r, k, v =>
      if k = nk then .node nk v nh l r
      else if k < nk then .node nk nv nh (update l k v) r
      else .node nk nv nh l (update r k v)

/-- Source `_findLessThan` with its `lastLess` accumulator. -/
def findLessThanAux : AVLTree → ℚ → Option (ℚ × ℚ) → Option (ℚ × ℚ)
  | .nil, _, lastLess => lastLess
  | .node nk nv _ l r, k, lastLess =>
      if nk ≥ k then findLessThanAux l k lastLess
      else findLessThanAux r k (some (nk, nv))

/-- Source `findLessThan`: largest key strictly below `k`. -/
def findLessThan (t : AVLTree) (k : ℚ) : Option (ℚ × ℚ) :=
  findLessThanAux t k none

/-- Source `_findGreaterThan` with its `lastGreater` accumulator. -/
def findGreaterThanAux : AVLTree → ℚ → Option (ℚ × ℚ) → Option (ℚ × ℚ)
  | .nil, _, lastGreater => lastGreater
  | .node nk nv _ l r, k, lastGreater =>
      if nk ≤ k then findGreaterThanAux r k lastGreater
      else findGreaterThanAux l k (some (nk, nv))

/-- Source `findGreaterThan`: smallest key strictly above `k`. -/
def findGreaterThan (t : AVLTree) (k : ℚ) : Option (ℚ × ℚ) :=
  findGreaterThanAux t k none

/-- Source `findLessThanOrEqual`: exact match first, else `findLessThan`. -/
def findLessThanOrEqual (t : AVLTree) (k : ℚ) : Option (ℚ × ℚ) :=
  match t.find k with
  | some n => some n
  | none => t.findLessThan k

/-- Source `findNearest`: exact match, else the numerically closer of the
predecessor and successor (the successor on an exact tie, since the
comparison is strict). -/
def findNearest (t : AVLTree) (k : ℚ) : Option (ℚ × ℚ) :=
  match t.find k with
  | some n => some n
  | none =>
      match t.findLessThan k, t.findGreaterThan k with
      | none, greater => greater
      | some less, none => some less
      | some less, some greater =>
          if k - less.1 < greater.1 - k then some less else some greater

/-- Source `_collectKeysInRange`: pushes the current key (when in range)
before recursing left, then right, into a shared result array. -/
def collectKeysInRange : AVLTree → ℚ → ℚ → List ℚ
  | .nil, _, _ => []
  | .node nk _ _ l r, fromKey, toKey =>
      (if nk ≥ fromKey ∧ nk ≤ toKey then [nk] else []) ++
      (if fromKey < nk then collectKeysInRange l fromKey toKey else []) ++
      (if toKey > nk then collectKeysInRange r fromKey toKey else [])

/-- Source `getKeysInRange`. -/
def getKeysInRange (t : AVLTree) (fromKey toKey : ℚ) : List ℚ :=
  collectKeysInRange t fromKey toKey

/-- Source `_inOrder` / `inOrderTraversal`: `(key, value)` pairs in
left-root-right order. -/
def inOrderTraversal : AVLTree → List (ℚ × ℚ)
  | .nil => []
  | .node k v _ l r => inOrderTraversal l ++ (k, v) :: inOrderTraversal r

end AVLTree

namespace RangeList

/-- Source `_getIntensityAt`: value of the greatest stored key `≤ position`,
defaulting to `0`. -/
def getIntensityAt (t : AVLTree) (position : ℚ) : ℚ :=
  match t.findLessThanOrEqual position with
  | some n => n.2
  | none => 0

/-- Source `_getIntensityBefore` (defined in the source, not called by
`add`/`set`). -/
def getIntensityBefore (t : AVLTree) (position : ℚ) : ℚ :=
  match t.findLessThan position with
  | some n => n.2
  | none => 0

/-- Source `_ensurePointExists`: insert a breakpoint carrying the current
effective intensity unless one is already stored at `position`. -/
def ensurePointExists (t : AVLTree) (position : ℚ) : AVLTree :=
  match t.findNearest position with
  | some n => if n.1 ≠ position then t.insert position (getIntensityAt t position) else t
  | none => t.insert position (getIntensityAt t position)

/-- Body of the `_adjustIntensities` loop: look the snapshot key up and add
`amount` when it is `fromKey` or below `toKey`. -/
def adjustStep (fromKey toKey amount : ℚ) (tr : AVLTree) (position : ℚ) :
    AVLTree :=
  match tr.find position with
  | some n =>
      if position = fromKey then tr.update position (n.2 + amount)
      else if position < toKey then tr.update position (n.2 + amount)
      else tr
  | none => tr

/-- Source `_adjustIntensities`: snapshot the keys in `[fromKey, toKey]`,
then add `amount` at each snapshot key that is `fromKey` or `< toKey`. -/
def adjustIntensities (t : AVLTree) (fromKey toKey amount : ℚ) : AVLTree :=
  (t.getKeysInRange fromKey toKey).foldl (adjustStep fromKey toKey amount) t

/-- Source `_removePointsInRange`: snapshot the keys in `[fromKey, toKey]`,
then remove the strictly interior ones. -/
def removePointsInRange (t : AVLTree) (fromKey toKey : ℚ) : AVLTree :=
  (t.getKeysInRange fromKey toKey).foldl
    (fun tr position =>
      if position > fromKey ∧ position < toKey then tr.remove position else tr) t

/-- The backward scan of `_cleanupRedundantPoints`: keys whose value equals
their snapshot predecessor's value, in ascending position (the source pushes
them in descending order, hence the `reverse` at the use site). -/
def dupsAsc : List (ℚ × ℚ) → List ℚ
  | [] => []
  | [_] => []
  | a :: b :: rest => (if b.2 = a.2 then [b.1] else []) ++ dupsAsc (b :: rest)

/-- Source `_cleanupRedundantPoints`: on a snapshot of length `≥ 2`, remove a
leading zero-valued point and every point equal in value to its snapshot
predecessor. -/
def cleanupRedundantPoints (t : AVLTree) : AVLTree :=
  let points := t.inOrderTraversal
  if points.length ≤ 1 then t
  else
    let toRemove :=
      (match points with
       | p :: _ => if p.2 = 0 then [p.1] else []
       | [] => []) ++ (dupsAsc points).reverse
    toRemove.foldl (fun tr k => tr.remove k) t

/-- Source `add`. -/
def add (t : AVLTree) (fromKey toKey amount : ℚ) : AVLTree :=
  if fromKey ≥ toKey ∨ amount = 0 then t
  else
    cleanupRedundantPoints
      (adjustIntensities (ensurePointExists (ensurePointExists t fromKey) toKey)
        fromKey toKey amount)

/-- Source `set`. -/
def set (t : AVLTree) (fromKey toKey amount : ℚ) : AVLTree :=
  if fromKey ≥ toKey then t
  else
    let intensityAfterRange := getIntensityAt t toKey
    let t1 := ensurePointExists t fromKey
    let t2 := ensurePointExists t1 toKey
    let t3 := removePointsInRange t2 fromKey toKey
    let t4 := t3.update fromKey amount
    let t5 := t4.update toKey intensityAfterRange
    cleanupRedundantPoints t5

/-- Source `toArray`: the in-order `(position, intensity)` pairs. -/
def toArray (t : AVLTree) : List (ℚ × ℚ) := t.inOrderTraversal

end RangeList

/-- One `RangeList` public mutation. -/
inductive RangeOp where
  | add (fromKey toKey amount : ℚ)
  | set (fromKey toKey amount : ℚ)

/-- Apply one `RangeList` mutation to the underlying tree. -/
def applyRangeOp (t : AVLTree) : RangeOp → AVLTree
  | .add fromKey toKey amount => RangeList.add t fromKey toKey amount
  | .set fromKey toKey amount => RangeList.set t fromKey toKey amount

/-- State of a fresh `RangeList` after a sequence of `add`/`set` calls. -/
def runRangeOps (ops : List RangeOp) : AVLTree :=
  ops.foldl applyRangeOp .nil

/-- One `AVLTree` public mutation. -/
inductive TreeOp where
  | ins (k v : ℚ)
  | del (k : ℚ)

/-- Apply one `AVLTree` mutation. -/
def applyTreeOp (t : AVLTree) : TreeOp → AVLTree
  | .ins k v => t.insert k v
  | .del k => t.remove k

/-- State of an initially empty `AVLTree` after a sequence of
`insert`/`remove` calls. -/
def runTreeOps (ops : List TreeOp) : AVLTree :=
  ops.foldl applyTreeOp .nil

namespace AVLTree

/-! ## Order machinery: in-order traversal, BST invariant -/
/-- Keys of the tree in traversal order. -/
def keysList (t : AVLTree) : List ℚ := t.inOrderTraversal.map Prod.fst

/-- A key predicate holding at every node of a tree. -/
inductive ForTree (p : ℚ → Prop) : AVLTree → Prop
  | nil : ForTree p .nil
  | node {k v h l r} :
      ForTree p l → p k → ForTree p r → ForTree p (.node k v h l r)

/-- The binary-search-tree invariant on keys. -/
inductive BST : AVLTree → Prop
  | nil : BST .nil
  | node {k v h l r} :
      ForTree (· < k) l → ForTree (k < ·) r → BST l → BST r →
      BST (.node k v h l r)

/-- A breakpoint list with strictly increasing keys. -/
def KeySorted (ps : List (ℚ × ℚ)) : Prop :=
  List.Pairwise (fun a b => a.1 < b.1) ps

end AVLTree

/-! ## List-level models of the map operations -/
/-- Insertion into a breakpoint list at its sorted position, overwriting the
pair at an equal key. -/
def listInsert (k v : ℚ) : List (ℚ × ℚ) → List (ℚ × ℚ)
  | [] => [(k, v)]
  | q :: rest =>
      if k < q.1 then (k, v) :: q :: rest
      else if k = q.1 then (k, v) :: rest
      else q :: listInsert k v rest

/-- Value replacement at one key, identity elsewhere. -/
def mapValueAt (k v : ℚ) (ps : List (ℚ × ℚ)) : List (ℚ × ℚ) :=
  ps.map fun q => if q.1 = k then (k, v) else q

/-- Removal of the pair at one key from a breakpoint list. -/
def eraseKey (k : ℚ) (ps : List (ℚ × ℚ)) : List (ℚ × ℚ) :=
  ps.filter fun q => q.1 ≠ k

/-- First-defined option, the shape of the `lastLess` / `lastGreater`
accumulators. -/
def optOr : Option (ℚ × ℚ) → Option (ℚ × ℚ) → Option (ℚ × ℚ)
  | some x, _ => some x
  | none, b => b

@[simp] theorem optOr_some (x : ℚ × ℚ) (b : Option (ℚ × ℚ)) :
    optOr (some x) b = some x := rfl

@[simp] theorem optOr_none (b : Option (ℚ × ℚ)) : optOr none b = b := rfl

/-! ## The effective piecewise-constant intensity of a breakpoint list -/
/-- Effective intensity at `x`: the value of the greatest stored key `≤ x`
(the last such pair of a key-sorted list), and `0` before the first
breakpoint. -/
def intensityAt (ps : List (ℚ × ℚ)) (x : ℚ) : ℚ :=
  match (ps.filter fun q => q.1 ≤ x).getLast? with
  | some q => q.2
  | none => 0

/-- Recursive form of the effective intensity, threading the value `d` in
effect before the remaining breakpoints. -/
def intensityAux (d : ℚ) : List (ℚ × ℚ) → ℚ → ℚ
  | [], _ => d
  | (k, v) :: rest, x => if x < k then d else intensityAux v rest x

/-! ## List-level model of the cleanup pass -/
/-- The survivors of the cleanup scan among the non-head points, given the
snapshot value `prev` of the preceding point. -/
def cleanupTail (prev : ℚ) : List (ℚ × ℚ) → List (ℚ × ℚ)
  | [] => []
  | b :: rest => (if b.2 = prev then [] else [b]) ++ cleanupTail b.2 rest

/-- The survivors of the whole cleanup scan: the head is dropped when its
value is `0`, and every later point is dropped when its value equals its
snapshot predecessor's value. -/
def cleanupList : List (ℚ × ℚ) → List (ℚ × ℚ)
  | [] => []
  | a :: rest => (if a.2 = 0 then [] else [a]) ++ cleanupTail a.2 rest

/-! ## List-level model of the adjust pass -/
/-- One stored point bumped by `amount`. -/
def bumpKey (ps : List (ℚ × ℚ)) (p amount : ℚ) : List (ℚ × ℚ) :=
  ps.map fun q => if q.1 = p then (q.1, q.2 + amount) else q

/-- The snapshot points among `pts` satisfying the window condition bumped. -/
def bumpAll (pts : List ℚ) (fromKey toKey amount : ℚ)
    (ps : List (ℚ × ℚ)) : List (ℚ × ℚ) :=
  ps.map fun q =>
    if q.1 ∈ pts ∧ (q.1 = fromKey ∨ q.1 < toKey) then (q.1, q.2 + amount)
    else q

/-- The pointwise net effect of `_adjustIntensities`: every stored key in
`[fromKey, toKey)` bumped by `amount`. -/
def adjustMap (fromKey toKey amount : ℚ) (ps : List (ℚ × ℚ)) :
    List (ℚ × ℚ) :=
  ps.map fun q =>
    if fromKey ≤ q.1 ∧ q.1 < toKey then (q.1, q.2 + amount) else q

/-! ## Canonical form of the exported list -/
/-- Canonical form promised by the spec: in key order no two adjacent pairs
share an intensity, and a nonempty list never starts with intensity `0`. -/
def CanonicalForm (ps : List (ℚ × ℚ)) : Prop :=
  List.Chain' (fun a b => a.2 ≠ b.2) ps ∧ ∀ p ∈ ps.head?, p.2 ≠ 0

namespace AVLTree

/-! ## AVL height and balance invariants -/
/-- Every cached `height` field equals one plus the larger child height. -/
def heightsOk : AVLTree → Prop
  | .nil => True
  | .node _ _ h l r =>
      h = 1 + max (getHeight l) (getHeight r) ∧ heightsOk l ∧ heightsOk r

/-- Every node's balance factor (from the cached heights) is in `{-1,0,1}`. -/
def BalancedAll : AVLTree → Prop
  | .nil => True
  | .node _ _ _ l r =>
      -1 ≤ (getHeight l : Int) - getHeight r ∧
      (getHeight l : Int) - getHeight r ≤ 1 ∧
      BalancedAll l ∧ BalancedAll r

/-- Keys, shape and cached heights of a tree, with the values erased. -/
def shapeHeights : AVLTree → AVLTree
  | .nil => .nil
  | .node k _ h l r => .node k 0 h (shapeHeights l) (shapeHeights r)

end AVLTree


/-- The repository's example 1 / scenario 1-3 from its test suite. -/
example :
    RangeList.toArray (runRangeOps [.add 10 30 1]) = [(10, 1), (30, 0)] ∧
    RangeList.toArray (runRangeOps [.add 10 30 1, .add 20 40 1]) =
      [(10, 1), (20, 2), (30, 1), (40, 0)] ∧
    RangeList.toArray (runRangeOps [.add 10 30 1, .add 20 40 1, .add 10 40 (-2)]) =
      [(10, -1), (20, 0), (30, -1), (40, 0)] := by with_unfolding_all decide

example :
    RangeList.toArray (runRangeOps [.add 10 30 1, .add 20 40 1, .add 10 40 (-1)]) =
      [(20, 1), (30, 0)] := by with_unfolding_all decide

example : RangeList.toArray (runRangeOps [.add 10 10 5]) = [] := by with_unfolding_all decide

example : RangeList.toArray (runRangeOps [.add 10 20 5, .add 20 30 5]) =
    [(10, 5), (30, 0)] := by with_unfolding_all decide

example :
    RangeList.toArray (runRangeOps [.add 10 50 1, .add 20 40 2, .add 30 35 (-5)]) =
      [(10, 1), (20, 3), (30, -2), (35, 3), (40, 1), (50, 0)] := by with_unfolding_all decide

example : RangeList.toArray (runRangeOps [.add 10 50 1, .set 20 40 5]) =
    [(10, 1), (20, 5), (40, 1), (50, 0)] := by with_unfolding_all decide

example :
    RangeList.toArray
        (runRangeOps [.add 10 50 1, .add 20 40 2, .add 30 35 3, .set 25 45 0]) =
      [(10, 1), (20, 3), (25, 0), (45, 1), (50, 0)] := by with_unfolding_all decide

example : RangeList.toArray (runRangeOps [.add 10 30 1, .set 10 20 5]) =
    [(10, 5), (20, 1), (30, 0)] := by with_unfolding_all decide

example :
    RangeList.toArray (runRangeOps [.add (-1000) 1000 1, .add (-500) 500 1, .add 0 100 1]) =
      [(-1000, 1), (-500, 2), (0, 3), (100, 2), (500, 1), (1000, 0)] := by with_unfolding_all decide

example :
    RangeList.toArray (runRangeOps [.add (21/2) (41/2) 1, .add (31/2) (51/2) 1]) =
      [(21/2, 1), (31/2, 2), (41/2, 1), (51/2, 0)] := by with_unfolding_all decide

namespace AVLTree

theorem forTree_iff {p : ℚ → Prop} {t : AVLTree} :
    ForTree p t ↔ ∀ x ∈ t.inOrderTraversal, p x.1 := by
  induction t with
  | nil =>
      simp only [inOrderTraversal, List.not_mem_nil, false_implies, implies_true, iff_true]
      exact .nil
  | node k v h l r ihl ihr =>
      constructor
      · intro hf x hx
        cases hf with
        | node hl hk hr =>
            simp only [inOrderTraversal, List.mem_append, List.mem_cons] at hx
            rcases hx with h1 | h2 | h3
            · exact ihl.mp hl x h1
            · rw [h2]; exact hk
            · exact ihr.mp hr x h3
      · intro hall
        refine ForTree.node (ihl.mpr fun x hx => ?_) ?_ (ihr.mpr fun x hx => ?_)
        · exact hall x (by simp [inOrderTraversal, hx])
        · exact hall (k, v) (by simp [inOrderTraversal])
        · exact hall x (by simp [inOrderTraversal, hx])

theorem bst_iff_sorted {t : AVLTree} : BST t ↔ KeySorted t.inOrderTraversal := by
  induction t with
  | nil =>
      constructor
      · intro _; exact List.Pairwise.nil
      · intro _; exact .nil
  | node k v h l r ihl ihr =>
      constructor
      · intro hb
        cases hb with
        | node hl hr bl br =>
            simp only [inOrderTraversal, KeySorted, List.pairwise_append,
              List.pairwise_cons]
            refine ⟨ihl.mp bl, ⟨fun b hb => (forTree_iff.mp hr) b hb, ihr.mp br⟩,
              fun a ha b hb => ?_⟩
            have hak : a.1 < k := (forTree_iff.mp hl) a ha
            rcases List.mem_cons.mp hb with rfl | hb'
            · exact hak
            · exact hak.trans ((forTree_iff.mp hr) b hb')
      · intro hs
        simp only [inOrderTraversal, KeySorted, List.pairwise_append,
          List.pairwise_cons] at hs
        obtain ⟨sl, ⟨hkr, sr⟩, hcross⟩ := hs
        refine BST.node (forTree_iff.mpr fun x hx => ?_) (forTree_iff.mpr hkr)
          (ihl.mpr sl) (ihr.mpr sr)
        exact hcross x hx (k, v) (List.mem_cons_self _ _)

theorem sorted_inorder {t : AVLTree} (h : BST t) : KeySorted t.inOrderTraversal :=
  bst_iff_sorted.mp h

/-! Rotations and `balance` preserve the in-order traversal. -/
theorem inorder_rotateRight (t : AVLTree) :
    (rotateRight t).inOrderTraversal = t.inOrderTraversal := by
  match t with
  | .nil => rfl
  | .node yk yv yh .nil yr => rfl
  | .node yk yv yh (.node xk xv xh xl xr) yr =>
      simp [rotateRight, inOrderTraversal]

theorem inorder_rotateLeft (t : AVLTree) :
    (rotateLeft t).inOrderTraversal = t.inOrderTraversal := by
  match t with
  | .nil => rfl
  | .node xk xv xh xl .nil => rfl
  | .node xk xv xh xl (.node yk yv yh yl yr) =>
      simp [rotateLeft, inOrderTraversal]

theorem inorder_balance (t : AVLTree) :
    (balance t).inOrderTraversal = t.inOrderTraversal := by
  cases t with
  | nil => rfl
  | node k v h l r =>
      simp only [balance]
      split_ifs <;>
        simp [inorder_rotateRight, inorder_rotateLeft, inOrderTraversal]

theorem inorder_rebalanceAfter (t : AVLTree) :
    (rebalanceAfter t).inOrderTraversal = t.inOrderTraversal := by
  cases t with
  | nil => rfl
  | node k v h l r => simp [rebalanceAfter, inorder_balance, inOrderTraversal]

end AVLTree

theorem listInsert_append_ge {k v : ℚ} {c : ℚ × ℚ} (xs ys : List (ℚ × ℚ))
    (h : k < c.1) :
    listInsert k v (xs ++ c :: ys) = listInsert k v xs ++ c :: ys := by
  induction xs with
  | nil => simp [listInsert, h]
  | cons q xs ih =>
      by_cases h1 : k < q.1
      · simp [listInsert, h1]
      · by_cases h2 : k = q.1
        · simp [listInsert, h1, h2]
        · simp [listInsert, h1, h2, ih]

theorem listInsert_append_lt {k v : ℚ} {c : ℚ × ℚ} (xs ys : List (ℚ × ℚ))
    (hxs : ∀ q ∈ xs, q.1 < k) (hc : c.1 < k) :
    listInsert k v (xs ++ c :: ys) = xs ++ c :: listInsert k v ys := by
  induction xs with
  | nil => simp [listInsert, not_lt.mpr hc.le, hc.ne']
  | cons q xs ih =>
      have hq : q.1 < k := hxs q (by simp)
      simp only [List.cons_append, listInsert, not_lt.mpr hq.le, if_false,
        hq.ne', ite_false, List.append_eq]
      rw [ih fun x hx => hxs x (by simp [hx])]

theorem listInsert_append_eq {k v vc : ℚ} (xs ys : List (ℚ × ℚ))
    (hxs : ∀ q ∈ xs, q.1 < k) :
    listInsert k v (xs ++ (k, vc) :: ys) = xs ++ (k, v) :: ys := by
  induction xs with
  | nil => simp [listInsert]
  | cons q xs ih =>
      have hq : q.1 < k := hxs q (by simp)
      simp only [List.cons_append, listInsert, not_lt.mpr hq.le, if_false,
        hq.ne', ite_false, List.append_eq]
      rw [ih fun x hx => hxs x (by simp [hx])]

theorem mem_listInsert {k v : ℚ} {ps : List (ℚ × ℚ)} {x : ℚ × ℚ}
    (hx : x ∈ listInsert k v ps) : x = (k, v) ∨ x ∈ ps := by
  induction ps with
  | nil => simpa [listInsert] using hx
  | cons q rest ih =>
      by_cases h1 : k < q.1
      · simp only [listInsert, if_pos h1, List.mem_cons] at hx
        rcases hx with h | h | h
        · exact Or.inl h
        · exact Or.inr (by simp [h])
        · exact Or.inr (by simp [h])
      · by_cases h2 : k = q.1
        · simp only [listInsert, if_neg h1, if_pos h2, List.mem_cons] at hx
          rcases hx with h | h
          · exact Or.inl h
          · exact Or.inr (by simp [h])
        · simp only [listInsert, if_neg h1, if_neg h2, List.mem_cons] at hx
          rcases hx with h | h
          · exact Or.inr (by simp [h])
          · rcases ih h with h' | h'
            · exact Or.inl h'
            · exact Or.inr (by simp [h'])

theorem keySorted_listInsert {ps : List (ℚ × ℚ)} (hs : AVLTree.KeySorted ps)
    (k v : ℚ) : AVLTree.KeySorted (listInsert k v ps) := by
  induction ps with
  | nil => simp [listInsert, AVLTree.KeySorted]
  | cons q rest ih =>
      rw [AVLTree.KeySorted, List.pairwise_cons] at hs
      obtain ⟨hq, hrest⟩ := hs
      by_cases h1 : k < q.1
      · rw [AVLTree.KeySorted, listInsert, if_pos h1]
        refine List.Pairwise.cons ?_ (List.Pairwise.cons hq hrest)
        intro b hb
        rcases List.mem_cons.mp hb with rfl | hb'
        · exact h1
        · exact h1.trans (hq b hb')
      · by_cases h2 : k = q.1
        · rw [AVLTree.KeySorted, listInsert, if_neg h1, if_pos h2]
          exact List.Pairwise.cons (fun b hb => h2 ▸ hq b hb) hrest
        · rw [AVLTree.KeySorted, listInsert, if_neg h1, if_neg h2]
          refine List.Pairwise.cons ?_ (ih hrest)
          intro b hb
          rcases mem_listInsert hb with rfl | hb'
          · exact lt_of_not_ge fun hge =>
              h2 (le_antisymm (not_lt.mp h1) hge).symm
          · exact hq b hb'

namespace AVLTree

theorem inorder_insertNode {t : AVLTree} (hb : BST t) (k v : ℚ) :
    (insertNode t k v).inOrderTraversal = listInsert k v t.inOrderTraversal := by
  induction t with
  | nil => rfl
  | node nk nv nh l r ihl ihr =>
      cases hb with
      | node hl hr bl br =>
          by_cases h1 : k < nk
          · rw [insertNode, if_pos h1, inorder_rebalanceAfter]
            simp only [inOrderTraversal]
            rw [ihl bl, listInsert_append_ge _ _ h1]
          · by_cases h2 : k > nk
            · rw [insertNode, if_neg h1, if_pos h2, inorder_rebalanceAfter]
              simp only [inOrderTraversal]
              rw [ihr br, listInsert_append_lt _ _
                (fun q hq => ((forTree_iff.mp hl) q hq).trans h2) h2]
            · have hk : k = nk := le_antisymm (not_lt.mp h2) (not_lt.mp h1)
              rw [insertNode, if_neg h1, if_neg h2]
              simp only [inOrderTraversal]
              rw [hk, listInsert_append_eq _ _
                (fun q hq => (forTree_iff.mp hl) q hq)]

theorem bst_insertNode {t : AVLTree} (hb : BST t) (k v : ℚ) :
    BST (insertNode t k v) := by
  rw [bst_iff_sorted, inorder_insertNode hb]
  exact keySorted_listInsert (sorted_inorder hb) k v

theorem mapValueAt_append (k v : ℚ) (xs ys : List (ℚ × ℚ)) :
    mapValueAt k v (xs ++ ys) = mapValueAt k v xs ++ mapValueAt k v ys := by
  simp [mapValueAt]

theorem mapValueAt_cons (k v : ℚ) (q : ℚ × ℚ) (ys : List (ℚ × ℚ)) :
    mapValueAt k v (q :: ys) =
      (if q.1 = k then (k, v) else q) :: mapValueAt k v ys := rfl

theorem mapValueAt_eq_self {k v : ℚ} {ps : List (ℚ × ℚ)}
    (h : ∀ q ∈ ps, q.1 ≠ k) : mapValueAt k v ps = ps := by
  induction ps with
  | nil => rfl
  | cons q rest ih =>
      rw [mapValueAt_cons, if_neg (h q (by simp)),
        ih fun x hx => h x (by simp [hx])]

theorem inorder_update {t : AVLTree} (hb : BST t) (k v : ℚ) :
    (update t k v).inOrderTraversal = mapValueAt k v t.inOrderTraversal := by
  induction t with
  | nil => rfl
  | node nk nv nh l r ihl ihr =>
      cases hb with
      | node hl hr bl br =>
          have hlk : ∀ q ∈ l.inOrderTraversal, q.1 < nk := forTree_iff.mp hl
          have hrk : ∀ q ∈ r.inOrderTraversal, nk < q.1 := forTree_iff.mp hr
          by_cases h1 : k = nk
          · subst h1
            rw [update, if_pos rfl]
            simp only [inOrderTraversal, mapValueAt_append, mapValueAt_cons,
              if_pos rfl, ite_true]
            rw [mapValueAt_eq_self fun q hq => ne_of_lt (hlk q hq),
              mapValueAt_eq_self fun q hq => ne_of_gt (hrk q hq)]
          · by_cases h2 : k < nk
            · rw [update, if_neg h1, if_pos h2]
              simp only [inOrderTraversal, mapValueAt_append, mapValueAt_cons,
                if_neg (Ne.symm h1)]
              rw [ihl bl,
                mapValueAt_eq_self fun q hq => ne_of_gt ((hrk q hq).trans' h2)]
            · have h3 : nk < k := lt_of_le_of_ne (not_lt.mp h2) (Ne.symm h1)
              rw [update, if_neg h1, if_neg h2]
              simp only [inOrderTraversal, mapValueAt_append, mapValueAt_cons,
                if_neg (Ne.symm h1)]
              rw [ihr br,
                mapValueAt_eq_self fun q hq => ne_of_lt ((hlk q hq).trans h3)]

theorem keys_mapValueAt (k v : ℚ) (ps : List (ℚ × ℚ)) :
    (mapValueAt k v ps).map Prod.fst = ps.map Prod.fst := by
  induction ps with
  | nil => rfl
  | cons q rest ih =>
      rw [mapValueAt_cons]
      by_cases h : q.1 = k <;> simp [h, ih]

theorem keySorted_iff_keys {ps : List (ℚ × ℚ)} :
    KeySorted ps ↔ List.Pairwise (· < ·) (ps.map Prod.fst) := by
  rw [KeySorted, List.pairwise_map]

theorem keySorted_mapValueAt {ps : List (ℚ × ℚ)} (hs : KeySorted ps)
    (k v : ℚ) : KeySorted (mapValueAt k v ps) := by
  rw [keySorted_iff_keys, keys_mapValueAt]
  exact keySorted_iff_keys.mp hs

theorem bst_update {t : AVLTree} (hb : BST t) (k v : ℚ) :
    BST (update t k v) := by
  rw [bst_iff_sorted, inorder_update hb]
  exact keySorted_mapValueAt (sorted_inorder hb) k v

end AVLTree

theorem eraseKey_eq_self {k : ℚ} {ps : List (ℚ × ℚ)}
    (h : ∀ q ∈ ps, q.1 ≠ k) : eraseKey k ps = ps :=
  List.filter_eq_self.mpr fun q hq => by simpa using h q hq

theorem eraseKey_append (k : ℚ) (xs ys : List (ℚ × ℚ)) :
    eraseKey k (xs ++ ys) = eraseKey k xs ++ eraseKey k ys := by
  simp [eraseKey]

theorem keySorted_eraseKey {k : ℚ} {ps : List (ℚ × ℚ)}
    (hs : AVLTree.KeySorted ps) : AVLTree.KeySorted (eraseKey k ps) :=
  List.Pairwise.sublist (List.filter_sublist ps) hs

namespace AVLTree

theorem inorder_findMin {t : AVLTree} (ht : t ≠ .nil) :
    ∃ tail, t.inOrderTraversal = findMin t :: tail := by
  induction t with
  | nil => exact absurd rfl ht
  | node k v h l r ihl ihr =>
      cases l with
      | nil => exact ⟨r.inOrderTraversal, rfl⟩
      | node lk lv lh ll lr =>
          obtain ⟨tl, htl⟩ := ihl (by simp)
          refine ⟨tl ++ (k, v) :: r.inOrderTraversal, ?_⟩
          rw [inOrderTraversal, htl, findMin, List.cons_append]

theorem eraseKey_cons_ne {k : ℚ} {q : ℚ × ℚ} (h : q.1 ≠ k)
    (ys : List (ℚ × ℚ)) : eraseKey k (q :: ys) = q :: eraseKey k ys := by
  simp [eraseKey, List.filter_cons, h]

theorem eraseKey_cons_eq {k : ℚ} {q : ℚ × ℚ} (h : q.1 = k)
    (ys : List (ℚ × ℚ)) : eraseKey k (q :: ys) = eraseKey k ys := by
  simp [eraseKey, List.filter_cons, h]

theorem removeNode_node (nk nv : ℚ) (nh : Nat) (l r : AVLTree) (k : ℚ) :
    removeNode (.node nk nv nh l r) k =
      rebalanceAfter
        (if k < nk then .node nk nv nh (removeNode l k) r
         else if k > nk then .node nk nv nh l (removeNode r k)
         else
           match l, r with
           | .nil, _ => r
           | _, .nil => l
           | _, _ =>
               .node (findMin r).1 (findMin r).2 nh l
                 (removeNode r (findMin r).1)) := by
  cases l <;> cases r <;> rfl

theorem removeNode_left_nil {nk nv : ℚ} {nh : Nat} {r : AVLTree} {k : ℚ}
    (h1 : ¬ k < nk) (h2 : ¬ k > nk) :
    removeNode (.node nk nv nh .nil r) k = rebalanceAfter r := by
  cases r <;> rw [removeNode_node, if_neg h1, if_neg h2]

theorem removeNode_right_nil {nk nv lk lv : ℚ} {nh lh : Nat}
    {ll lr : AVLTree} {k : ℚ} (h1 : ¬ k < nk) (h2 : ¬ k > nk) :
    removeNode (.node nk nv nh (.node lk lv lh ll lr) .nil) k =
      rebalanceAfter (.node lk lv lh ll lr) := by
  rw [removeNode_node, if_neg h1, if_neg h2]

theorem removeNode_two {nk nv lk lv rk rv : ℚ} {nh lh rh : Nat}
    {ll lr rl rr : AVLTree} {k : ℚ} (h1 : ¬ k < nk) (h2 : ¬ k > nk) :
    removeNode (.node nk nv nh (.node lk lv lh ll lr) (.node rk rv rh rl rr)) k =
      rebalanceAfter
        (.node (findMin (.node rk rv rh rl rr)).1
          (findMin (.node rk rv rh rl rr)).2 nh (.node lk lv lh ll lr)
          (removeNode (.node rk rv rh rl rr)
            (findMin (.node rk rv rh rl rr)).1)) := by
  rw [removeNode_node, if_neg h1, if_neg h2]

theorem eraseKey_cons_self {k v : ℚ} {ys : List (ℚ × ℚ)} :
    eraseKey k ((k, v) :: ys) = eraseKey k ys :=
  eraseKey_cons_eq rfl ys

theorem inorder_removeNode {t : AVLTree} (hb : BST t) (k : ℚ) :
    (removeNode t k).inOrderTraversal = eraseKey k t.inOrderTraversal := by
  induction t generalizing k with
  | nil => rfl
  | node nk nv nh l r ihl ihr =>
      cases hb with
      | node hl hr bl br =>
          have hlk : ∀ q ∈ l.inOrderTraversal, q.1 < nk := forTree_iff.mp hl
          have hrk : ∀ q ∈ r.inOrderTraversal, nk < q.1 := forTree_iff.mp hr
          by_cases h1 : k < nk
          · rw [removeNode_node, if_pos h1, inorder_rebalanceAfter]
            simp only [inOrderTraversal]
            rw [ihl bl, eraseKey_append, eraseKey_cons_ne (ne_of_gt h1),
              eraseKey_eq_self fun q hq => ne_of_gt (h1.trans (hrk q hq))]
          · by_cases h2 : k > nk
            · rw [removeNode_node, if_neg h1, if_pos h2, inorder_rebalanceAfter]
              simp only [inOrderTraversal]
              rw [ihr br, eraseKey_append, eraseKey_cons_ne (ne_of_lt h2),
                eraseKey_eq_self fun q hq => ne_of_lt ((hlk q hq).trans h2)]
            · have hk : k = nk := le_antisymm (not_lt.mp h2) (not_lt.mp h1)
              subst hk
              have herl : eraseKey k l.inOrderTraversal = l.inOrderTraversal :=
                eraseKey_eq_self fun q hq => ne_of_lt (hlk q hq)
              have herr : eraseKey k r.inOrderTraversal = r.inOrderTraversal :=
                eraseKey_eq_self fun q hq => ne_of_gt (hrk q hq)
              cases l with
              | nil =>
                  rw [removeNode_left_nil h1 h2, inorder_rebalanceAfter]
                  simp only [inOrderTraversal, List.nil_append]
                  rw [eraseKey_cons_self, herr]
              | node lk lv lh ll lr =>
                  cases r with
                  | nil =>
                      rw [removeNode_right_nil h1 h2, inorder_rebalanceAfter]
                      conv_rhs => rw [inOrderTraversal]
                      rw [eraseKey_append, herl, eraseKey_cons_self]
                      simp [inOrderTraversal, eraseKey]
                  | node rk rv rh rl rr =>
                      rw [removeNode_two h1 h2, inorder_rebalanceAfter]
                      conv_rhs => rw [inOrderTraversal]
                      rw [eraseKey_append, herl, eraseKey_cons_self, herr]
                      conv_lhs => rw [inOrderTraversal]
                      rw [ihr br]
                      obtain ⟨tail, htail⟩ :=
                        inorder_findMin (t := .node rk rv rh rl rr) (by simp)
                      have hsr : KeySorted
                          ((AVLTree.node rk rv rh rl rr).inOrderTraversal) :=
                        sorted_inorder br
                      rw [htail] at hsr ⊢
                      rw [KeySorted, List.pairwise_cons] at hsr
                      have hfm : (findMin (AVLTree.node rk rv rh rl rr)) =
                          ((findMin (AVLTree.node rk rv rh rl rr)).1,
                           (findMin (AVLTree.node rk rv rh rl rr)).2) := rfl
                      rw [← hfm, eraseKey_cons_self,
                        eraseKey_eq_self fun q hq => ne_of_gt (hsr.1 q hq)]

theorem bst_removeNode {t : AVLTree} (hb : BST t) (k : ℚ) :
    BST (removeNode t k) := by
  rw [bst_iff_sorted, inorder_removeNode hb]
  exact keySorted_eraseKey (sorted_inorder hb)

theorem optOr_none_right (a : Option (ℚ × ℚ)) : optOr a none = a := by
  cases a <;> rfl

theorem find_eq_some {t : AVLTree} (hb : BST t) {k : ℚ} {x : ℚ × ℚ} :
    t.find k = some x ↔ x.1 = k ∧ x ∈ t.inOrderTraversal := by
  induction t with
  | nil => simp [find, inOrderTraversal]
  | node nk nv nh l r ihl ihr =>
      cases hb with
      | node hl hr bl br =>
          have hlk : ∀ q ∈ l.inOrderTraversal, q.1 < nk := forTree_iff.mp hl
          have hrk : ∀ q ∈ r.inOrderTraversal, nk < q.1 := forTree_iff.mp hr
          by_cases h1 : k = nk
          · subst h1
            rw [find, if_pos rfl]
            constructor
            · rintro h
              rw [Option.some_inj] at h
              subst h
              simp [inOrderTraversal]
            · rintro ⟨hx1, hx2⟩
              simp only [inOrderTraversal, List.mem_append, List.mem_cons] at hx2
              rcases hx2 with h | h | h
              · exact absurd hx1 (ne_of_lt (hlk x h))
              · rw [h]
              · exact absurd hx1 (ne_of_gt (hrk x h))
          · by_cases h2 : k < nk
            · rw [find, if_neg h1, if_pos h2, ihl bl]
              constructor
              · rintro ⟨hx1, hx2⟩
                exact ⟨hx1, by simp [inOrderTraversal, hx2]⟩
              · rintro ⟨hx1, hx2⟩
                refine ⟨hx1, ?_⟩
                simp only [inOrderTraversal, List.mem_append, List.mem_cons] at hx2
                rcases hx2 with h | h | h
                · exact h
                · exact absurd (show k = nk by rw [← hx1, h]) h1
                · exact absurd (hx1 ▸ hrk x h) (not_lt.mpr h2.le)
            · have h3 : nk < k := lt_of_le_of_ne (not_lt.mp h2) (Ne.symm h1)
              rw [find, if_neg h1, if_neg h2, ihr br]
              constructor
              · rintro ⟨hx1, hx2⟩
                exact ⟨hx1, by simp [inOrderTraversal, hx2]⟩
              · rintro ⟨hx1, hx2⟩
                refine ⟨hx1, ?_⟩
                simp only [inOrderTraversal, List.mem_append, List.mem_cons] at hx2
                rcases hx2 with h | h | h
                · exact absurd (hx1 ▸ hlk x h) (not_lt.mpr h3.le)
                · exact absurd (show k = nk by rw [← hx1, h]) h1
                · exact h

theorem find_eq_none {t : AVLTree} (hb : BST t) {k : ℚ} :
    t.find k = none ↔ ∀ q ∈ t.inOrderTraversal, q.1 ≠ k := by
  constructor
  · intro h q hq hqk
    have hsome : t.find k = some q := (find_eq_some hb).mpr ⟨hqk, hq⟩
    rw [h] at hsome
    exact Option.noConfusion hsome
  · intro h
    cases hf : t.find k with
    | none => rfl
    | some x =>
        obtain ⟨hx1, hx2⟩ := (find_eq_some hb).mp hf
        exact absurd hx1 (h x hx2)

theorem findLessThanAux_eq {t : AVLTree} (hb : BST t) (k : ℚ) :
    ∀ acc, findLessThanAux t k acc =
      optOr ((t.inOrderTraversal.filter fun q => q.1 < k).getLast?) acc := by
  induction t with
  | nil => intro acc; rfl
  | node nk nv nh l r ihl ihr =>
      cases hb with
      | node hl hr bl br =>
          have hlk : ∀ q ∈ l.inOrderTraversal, q.1 < nk := forTree_iff.mp hl
          have hrk : ∀ q ∈ r.inOrderTraversal, nk < q.1 := forTree_iff.mp hr
          intro acc
          by_cases h1 : nk ≥ k
          · have hmid : List.filter (fun q => decide (q.1 < k))
                ((nk, nv) :: r.inOrderTraversal) = [] := by
              rw [List.filter_cons_of_neg (by simpa using not_lt.mpr h1)]
              exact List.filter_eq_nil_iff.mpr fun q hq => by
                simpa using not_lt.mpr (h1.trans (hrk q hq).le)
            rw [findLessThanAux, if_pos h1, ihl bl, inOrderTraversal,
              List.filter_append, hmid, List.append_nil]
          · have h2 : nk < k := not_le.mp h1
            have hmid : List.filter (fun q => decide (q.1 < k))
                ((nk, nv) :: r.inOrderTraversal) =
                (nk, nv) ::
                  List.filter (fun q => decide (q.1 < k)) r.inOrderTraversal :=
              List.filter_cons_of_pos (by simpa using h2)
            rw [findLessThanAux, if_neg h1, ihr br, inOrderTraversal,
              List.filter_append, hmid, List.getLast?_append_cons]
            cases hfi : List.filter (fun q => decide (q.1 < k))
                r.inOrderTraversal with
            | nil => rw [List.getLast?_singleton]; rfl
            | cons p ps =>
                rw [List.getLast?_cons_cons,
                  List.getLast?_eq_getLast (p :: ps) (List.cons_ne_nil p ps)]
                rfl

theorem findLessThan_eq {t : AVLTree} (hb : BST t) (k : ℚ) :
    t.findLessThan k = (t.inOrderTraversal.filter fun q => q.1 < k).getLast? := by
  rw [findLessThan, findLessThanAux_eq hb, optOr_none_right]

theorem findGreaterThanAux_eq {t : AVLTree} (hb : BST t) (k : ℚ) :
    ∀ acc, findGreaterThanAux t k acc =
      optOr ((t.inOrderTraversal.filter fun q => k < q.1).head?) acc := by
  induction t with
  | nil => intro acc; rfl
  | node nk nv nh l r ihl ihr =>
      cases hb with
      | node hl hr bl br =>
          have hlk : ∀ q ∈ l.inOrderTraversal, q.1 < nk := forTree_iff.mp hl
          have hrk : ∀ q ∈ r.inOrderTraversal, nk < q.1 := forTree_iff.mp hr
          intro acc
          by_cases h1 : nk ≤ k
          · have hleft : List.filter (fun q => decide (k < q.1))
                l.inOrderTraversal = [] :=
              List.filter_eq_nil_iff.mpr fun q hq => by
                simpa using not_lt.mpr ((hlk q hq).le.trans h1)
            have hmid : List.filter (fun q => decide (k < q.1))
                ((nk, nv) :: r.inOrderTraversal) =
                List.filter (fun q => decide (k < q.1)) r.inOrderTraversal :=
              List.filter_cons_of_neg (by simpa using not_lt.mpr h1)
            rw [findGreaterThanAux, if_pos h1, ihr br, inOrderTraversal,
              List.filter_append, hleft, hmid, List.nil_append]
          · have h2 : k < nk := not_le.mp h1
            have hmid : List.filter (fun q => decide (k < q.1))
                ((nk, nv) :: r.inOrderTraversal) =
                (nk, nv) ::
                  List.filter (fun q => decide (k < q.1)) r.inOrderTraversal :=
              List.filter_cons_of_pos (by simpa using h2)
            rw [findGreaterThanAux, if_neg h1, ihl bl, inOrderTraversal,
              List.filter_append, hmid]
            cases hfl : List.filter (fun q => decide (k < q.1))
                l.inOrderTraversal with
            | nil => rw [List.nil_append]; rfl
            | cons p ps => rw [List.cons_append]; rfl

theorem findGreaterThan_eq {t : AVLTree} (hb : BST t) (k : ℚ) :
    t.findGreaterThan k = (t.inOrderTraversal.filter fun q => k < q.1).head? := by
  rw [findGreaterThan, findGreaterThanAux_eq hb, optOr_none_right]

end AVLTree

theorem intensityAux_eq {ps : List (ℚ × ℚ)} (hs : AVLTree.KeySorted ps)
    (d x : ℚ) :
    intensityAux d ps x =
      match (ps.filter fun q => q.1 ≤ x).getLast? with
      | some q => q.2
      | none => d := by
  induction ps generalizing d with
  | nil => rfl
  | cons q rest ih =>
      obtain ⟨k, v⟩ := q
      rw [AVLTree.KeySorted, List.pairwise_cons] at hs
      by_cases h1 : x < k
      · have hnil : List.filter (fun q => decide (q.1 ≤ x)) ((k, v) :: rest) =
            [] := by
          rw [List.filter_cons_of_neg (by simpa using not_le.mpr h1)]
          exact List.filter_eq_nil_iff.mpr fun p hp => by
            simpa using not_le.mpr (h1.trans (hs.1 p hp))
        rw [intensityAux, if_pos h1, hnil]
        rfl
      · have hcons : List.filter (fun q => decide (q.1 ≤ x)) ((k, v) :: rest) =
            (k, v) :: List.filter (fun q => decide (q.1 ≤ x)) rest :=
          List.filter_cons_of_pos (by simpa using not_lt.mp h1)
        rw [intensityAux, if_neg h1, ih hs.2, hcons]
        cases hfi : List.filter (fun q => decide (q.1 ≤ x)) rest with
        | nil => rw [List.getLast?_singleton]; rfl
        | cons p ps' =>
            rw [List.getLast?_cons_cons,
              List.getLast?_eq_getLast (p :: ps') (List.cons_ne_nil p ps')]

theorem intensityAt_eq_aux {ps : List (ℚ × ℚ)} (hs : AVLTree.KeySorted ps)
    (x : ℚ) : intensityAt ps x = intensityAux 0 ps x := by
  rw [intensityAt, intensityAux_eq hs]

theorem filter_le_of_mem {ps : List (ℚ × ℚ)} (hs : AVLTree.KeySorted ps)
    {x v : ℚ} (hm : (x, v) ∈ ps) :
    ps.filter (fun q => q.1 ≤ x) =
      (ps.filter fun q => q.1 < x) ++ [(x, v)] := by
  induction ps with
  | nil => exact absurd hm (List.not_mem_nil _)
  | cons q rest ih =>
      rw [AVLTree.KeySorted, List.pairwise_cons] at hs
      rcases List.mem_cons.mp hm with rfl | hm'
      · have h1 : List.filter (fun q => decide (q.1 ≤ x)) rest = [] :=
          List.filter_eq_nil_iff.mpr fun p hp => by
            simpa using not_le.mpr (hs.1 p hp)
        have h2 : List.filter (fun q => decide (q.1 < x)) rest = [] :=
          List.filter_eq_nil_iff.mpr fun p hp => by
            simpa using not_lt.mpr (hs.1 p hp).le
        rw [List.filter_cons_of_pos (by simp),
          List.filter_cons_of_neg (by simp), h1, h2]
        rfl
      · have hqx : q.1 < x := hs.1 (x, v) hm'
        rw [List.filter_cons_of_pos (by simpa using hqx.le),
          List.filter_cons_of_pos (by simpa using hqx), ih hs.2 hm',
          List.cons_append]

theorem intensityAt_of_mem {ps : List (ℚ × ℚ)} (hs : AVLTree.KeySorted ps)
    {x v : ℚ} (hm : (x, v) ∈ ps) : intensityAt ps x = v := by
  rw [intensityAt, filter_le_of_mem hs hm, List.getLast?_append_cons,
    List.getLast?_singleton]

theorem getIntensityAt_eq {t : AVLTree} (hb : AVLTree.BST t) (x : ℚ) :
    RangeList.getIntensityAt t x = intensityAt t.inOrderTraversal x := by
  rw [RangeList.getIntensityAt, AVLTree.findLessThanOrEqual]
  cases hf : t.find x with
  | some n =>
      obtain ⟨hn1, hn2⟩ := (AVLTree.find_eq_some hb).mp hf
      have : ((n.1 : ℚ), n.2) = n := rfl
      rw [intensityAt_of_mem (AVLTree.sorted_inorder hb)
        (x := x) (v := n.2) (by rw [← hn1, this]; exact hn2)]
  | none =>
      have hnk : ∀ q ∈ t.inOrderTraversal, q.1 ≠ x :=
        (AVLTree.find_eq_none hb).mp hf
      have hfe : t.inOrderTraversal.filter (fun q => q.1 ≤ x) =
          t.inOrderTraversal.filter fun q => q.1 < x :=
        List.filter_congr fun q hq => by
          simp [le_iff_lt_or_eq, hnk q hq]
      rw [AVLTree.findLessThan_eq hb, intensityAt, hfe]

theorem intensityAux_of_lt_all {rest : List (ℚ × ℚ)} {x v : ℚ}
    (h : ∀ q ∈ rest, x < q.1) : intensityAux v rest x = v := by
  cases rest with
  | nil => rfl
  | cons q rs =>
      obtain ⟨k2, v2⟩ := q
      rw [intensityAux, if_pos (h (k2, v2) (by simp))]

theorem listInsert_self_mem (k v : ℚ) (ps : List (ℚ × ℚ)) :
    (k, v) ∈ listInsert k v ps := by
  induction ps with
  | nil => simp [listInsert]
  | cons q rest ih =>
      by_cases h1 : k < q.1
      · simp [listInsert, h1]
      · by_cases h2 : k = q.1
        · simp [listInsert, h1, h2]
        · simp only [listInsert, if_neg h1, if_neg h2, List.mem_cons]
          exact Or.inr ih

theorem mem_listInsert_of_mem {k v : ℚ} {ps : List (ℚ × ℚ)} {x : ℚ × ℚ}
    (h : x ∈ ps) (hne : x.1 ≠ k) : x ∈ listInsert k v ps := by
  induction ps with
  | nil => exact absurd h (List.not_mem_nil x)
  | cons q rest ih =>
      rcases List.mem_cons.mp h with rfl | h'
      · by_cases h1 : k < x.1
        · simp [listInsert, h1]
        · by_cases h2 : k = x.1
          · exact absurd h2.symm hne
          · simp [listInsert, h1, h2]
      · by_cases h1 : k < q.1
        · simp [listInsert, h1, h']
        · by_cases h2 : k = q.1
          · simp only [listInsert, if_neg h1, if_pos h2, List.mem_cons]
            exact Or.inr h'
          · simp only [listInsert, if_neg h1, if_neg h2, List.mem_cons]
            exact Or.inr (ih h')

theorem intensityAux_listInsert (p : ℚ) {ps : List (ℚ × ℚ)}
    (hs : AVLTree.KeySorted ps) :
    ∀ d q, intensityAux d (listInsert p (intensityAux d ps p) ps) q =
      intensityAux d ps q := by
  induction ps with
  | nil =>
      intro d q
      by_cases h : q < p <;> simp [listInsert, intensityAux, h]
  | cons a rest ih =>
      obtain ⟨k, v⟩ := a
      rw [AVLTree.KeySorted, List.pairwise_cons] at hs
      intro d q
      by_cases h1 : p < k
      · have hval : intensityAux d ((k, v) :: rest) p = d := by
          rw [intensityAux, if_pos h1]
        rw [hval]
        simp only [listInsert]
        rw [if_pos h1, intensityAux]
        by_cases h2 : q < p
        · rw [if_pos h2, intensityAux, if_pos (h2.trans h1)]
        · rw [if_neg h2]
      · by_cases h2 : p = k
        · subst h2
          have hval : intensityAux d ((p, v) :: rest) p = v := by
            rw [intensityAux, if_neg (lt_irrefl p)]
            exact intensityAux_of_lt_all fun q hq => hs.1 q hq
          rw [hval]
          simp [listInsert, lt_irrefl]
        · have h3 : k < p := lt_of_le_of_ne (not_lt.mp h1) (Ne.symm h2)
          have hval : intensityAux d ((k, v) :: rest) p =
              intensityAux v rest p := by
            rw [intensityAux, if_neg (not_lt.mpr h3.le)]
          rw [hval]
          simp only [listInsert]
          rw [if_neg (not_lt.mpr h3.le), if_neg h2, intensityAux, intensityAux]
          by_cases h4 : q < k
          · rw [if_pos h4, if_pos h4]
          · rw [if_neg h4, if_neg h4]
            exact ih hs.2 v q

namespace RangeList

theorem ensurePoint_present {t : AVLTree} (hb : AVLTree.BST t) {p : ℚ}
    {v : ℚ} (h : (p, v) ∈ t.inOrderTraversal) : ensurePointExists t p = t := by
  have hf : t.find p = some (p, v) :=
    (AVLTree.find_eq_some hb).mpr ⟨rfl, h⟩
  rw [ensurePointExists, AVLTree.findNearest, hf]
  simp

theorem findNearest_absent {t : AVLTree} (hb : AVLTree.BST t) {p : ℚ}
    (h : ∀ q ∈ t.inOrderTraversal, q.1 ≠ p) :
    t.findNearest p = none ∨
      ∃ n, t.findNearest p = some n ∧ n.1 ≠ p := by
  have hf : t.find p = none := (AVLTree.find_eq_none hb).mpr h
  rw [AVLTree.findNearest, hf, AVLTree.findLessThan_eq hb,
    AVLTree.findGreaterThan_eq hb]
  cases hg : (t.inOrderTraversal.filter fun q => q.1 < p).getLast? with
  | none =>
      cases hh : (t.inOrderTraversal.filter fun q => p < q.1).head? with
      | none => exact Or.inl rfl
      | some g =>
          have hgm : g ∈ t.inOrderTraversal.filter fun q => p < q.1 :=
            List.mem_of_mem_head? (by simp [hh])
          have hg1 : p < g.1 := by simpa using (List.mem_filter.mp hgm).2
          exact Or.inr ⟨g, rfl, ne_of_gt hg1⟩
  | some l' =>
      have hlm : l' ∈ t.inOrderTraversal.filter fun q => q.1 < p :=
        List.mem_of_getLast?_eq_some hg
      have hl1 : l'.1 < p := by simpa using (List.mem_filter.mp hlm).2
      cases hh : (t.inOrderTraversal.filter fun q => p < q.1).head? with
      | none => exact Or.inr ⟨l', rfl, ne_of_lt hl1⟩
      | some g =>
          have hgm : g ∈ t.inOrderTraversal.filter fun q => p < q.1 :=
            List.mem_of_mem_head? (by simp [hh])
          have hg1 : p < g.1 := by simpa using (List.mem_filter.mp hgm).2
          by_cases hc : p - l'.1 < g.1 - p
          · refine Or.inr ⟨l', ?_, ne_of_lt hl1⟩
            show (if p - l'.1 < g.1 - p then some l' else some g) = some l'
            rw [if_pos hc]
          · refine Or.inr ⟨g, ?_, ne_of_gt hg1⟩
            show (if p - l'.1 < g.1 - p then some l' else some g) = some g
            rw [if_neg hc]

theorem ensurePoint_absent {t : AVLTree} (hb : AVLTree.BST t) {p : ℚ}
    (h : ∀ q ∈ t.inOrderTraversal, q.1 ≠ p) :
    ensurePointExists t p = t.insert p (getIntensityAt t p) := by
  rcases findNearest_absent hb h with hfn | ⟨n, hfn, hne⟩
  · rw [ensurePointExists, hfn]
  · rw [ensurePointExists, hfn]
    show (if n.1 ≠ p then t.insert p (getIntensityAt t p) else t) =
      t.insert p (getIntensityAt t p)
    rw [if_pos hne]

theorem inorder_ensurePoint_absent {t : AVLTree} (hb : AVLTree.BST t) {p : ℚ}
    (h : ∀ q ∈ t.inOrderTraversal, q.1 ≠ p) :
    (ensurePointExists t p).inOrderTraversal =
      listInsert p (intensityAt t.inOrderTraversal p) t.inOrderTraversal := by
  rw [ensurePoint_absent hb h, AVLTree.insert, AVLTree.inorder_insertNode hb,
    getIntensityAt_eq hb]

theorem bst_ensurePoint {t : AVLTree} (hb : AVLTree.BST t) (p : ℚ) :
    AVLTree.BST (ensurePointExists t p) := by
  by_cases h : ∀ q ∈ t.inOrderTraversal, q.1 ≠ p
  · rw [ensurePoint_absent hb h]
    exact AVLTree.bst_insertNode hb _ _
  · push_neg at h
    obtain ⟨q, hq, hqp⟩ := h
    have : ((p : ℚ), q.2) ∈ t.inOrderTraversal := by
      have : (q.1, q.2) = q := rfl
      rw [← hqp, this]
      exact hq
    rw [ensurePoint_present hb this]
    exact hb

end RangeList

theorem cleanupTail_sublist (prev : ℚ) (ps : List (ℚ × ℚ)) :
    (cleanupTail prev ps).Sublist ps := by
  induction ps generalizing prev with
  | nil => exact List.Sublist.refl []
  | cons b rest ih =>
      rw [cleanupTail]
      by_cases h : b.2 = prev
      · rw [if_pos h, List.nil_append]
        exact (ih b.2).cons b
      · rw [if_neg h, List.singleton_append]
        exact (ih b.2).cons₂ b

theorem cleanupList_sublist (ps : List (ℚ × ℚ)) :
    (cleanupList ps).Sublist ps := by
  cases ps with
  | nil => exact List.Sublist.refl []
  | cons a rest =>
      rw [cleanupList]
      by_cases h : a.2 = 0
      · rw [if_pos h, List.nil_append]
        exact (cleanupTail_sublist a.2 rest).cons a
      · rw [if_neg h, List.singleton_append]
        exact (cleanupTail_sublist a.2 rest).cons₂ a

theorem cleanupTail_head_ne (prev : ℚ) (ps : List (ℚ × ℚ)) :
    ∀ x ∈ (cleanupTail prev ps).head?, x.2 ≠ prev := by
  induction ps generalizing prev with
  | nil => intro x hx; exact absurd hx (by simp [cleanupTail])
  | cons b rest ih =>
      intro x hx
      rw [cleanupTail] at hx
      by_cases h : b.2 = prev
      · rw [if_pos h, List.nil_append] at hx
        exact h ▸ ih b.2 x hx
      · rw [if_neg h, List.singleton_append] at hx
        simp only [List.head?_cons, Option.mem_def, Option.some_inj] at hx
        rw [hx] at h
        exact h

theorem cleanupTail_chain (prev : ℚ) (ps : List (ℚ × ℚ)) :
    List.Chain' (fun a b => a.2 ≠ b.2) (cleanupTail prev ps) := by
  induction ps generalizing prev with
  | nil => exact List.chain'_nil
  | cons b rest ih =>
      rw [cleanupTail]
      by_cases h : b.2 = prev
      · rw [if_pos h, List.nil_append]
        exact ih b.2
      · rw [if_neg h, List.singleton_append, List.chain'_cons']
        exact ⟨fun y hy => (cleanupTail_head_ne b.2 rest y hy).symm, ih b.2⟩

theorem cleanupList_chain (ps : List (ℚ × ℚ)) :
    List.Chain' (fun a b => a.2 ≠ b.2) (cleanupList ps) := by
  cases ps with
  | nil => exact List.chain'_nil
  | cons a rest =>
      rw [cleanupList]
      by_cases h : a.2 = 0
      · rw [if_pos h, List.nil_append]
        exact cleanupTail_chain a.2 rest
      · rw [if_neg h, List.singleton_append, List.chain'_cons']
        exact ⟨fun y hy => (cleanupTail_head_ne a.2 rest y hy).symm,
          cleanupTail_chain a.2 rest⟩

theorem cleanupList_head_ne_zero (ps : List (ℚ × ℚ)) :
    ∀ x ∈ (cleanupList ps).head?, x.2 ≠ 0 := by
  cases ps with
  | nil => intro x hx; exact absurd hx (by simp [cleanupList])
  | cons a rest =>
      intro x hx
      rw [cleanupList] at hx
      by_cases h : a.2 = 0
      · rw [if_pos h, List.nil_append] at hx
        exact h ▸ cleanupTail_head_ne a.2 rest x hx
      · rw [if_neg h, List.singleton_append] at hx
        simp only [List.head?_cons, Option.mem_def, Option.some_inj] at hx
        rw [hx] at h
        exact h

theorem intensityAux_cleanupTail (x : ℚ) :
    ∀ ps : List (ℚ × ℚ), AVLTree.KeySorted ps →
      ∀ d, intensityAux d (cleanupTail d ps) x = intensityAux d ps x := by
  intro ps
  induction ps with
  | nil => intro _ d; rfl
  | cons b rest ih =>
      intro hs d
      rw [AVLTree.KeySorted, List.pairwise_cons] at hs
      obtain ⟨k, v⟩ := b
      rw [cleanupTail]
      by_cases h : v = d
      · rw [if_pos h, List.nil_append]
        subst h
        rw [ih hs.2 v]
        conv_rhs => rw [intensityAux]
        by_cases hx : x < k
        · rw [if_pos hx]
          exact intensityAux_of_lt_all fun q hq => hx.trans (hs.1 q hq)
        · rw [if_neg hx]
      · rw [if_neg h, List.singleton_append, intensityAux, intensityAux]
        by_cases hx : x < k
        · rw [if_pos hx, if_pos hx]
        · rw [if_neg hx, if_neg hx]
          exact ih hs.2 v

theorem intensityAux_cleanupList (x : ℚ) {ps : List (ℚ × ℚ)}
    (hs : AVLTree.KeySorted ps) :
    intensityAux 0 (cleanupList ps) x = intensityAux 0 ps x := by
  cases ps with
  | nil => rfl
  | cons a rest =>
      rw [AVLTree.KeySorted, List.pairwise_cons] at hs
      obtain ⟨k, v⟩ := a
      rw [cleanupList]
      by_cases h : v = 0
      · rw [if_pos h, List.nil_append]
        subst h
        rw [intensityAux_cleanupTail x rest hs.2 0]
        conv_rhs => rw [intensityAux]
        by_cases hx : x < k
        · rw [if_pos hx]
          exact intensityAux_of_lt_all fun q hq => hx.trans (hs.1 q hq)
        · rw [if_neg hx]
      · rw [if_neg h, List.singleton_append, intensityAux, intensityAux]
        by_cases hx : x < k
        · rw [if_pos hx, if_pos hx]
        · rw [if_neg hx, if_neg hx]
          exact intensityAux_cleanupTail x rest hs.2 v

theorem inorder_foldl_remove (ks : List ℚ) :
    ∀ {t : AVLTree}, AVLTree.BST t →
      ((ks.foldl (fun tr k => tr.remove k) t).inOrderTraversal =
        t.inOrderTraversal.filter fun q => q.1 ∉ ks) ∧
      AVLTree.BST (ks.foldl (fun tr k => tr.remove k) t) := by
  induction ks with
  | nil =>
      intro t hb
      refine ⟨?_, hb⟩
      rw [List.foldl_nil, List.filter_eq_self.mpr fun q hq => by simp]
  | cons k ks ih =>
      intro t hb
      rw [List.foldl_cons]
      obtain ⟨h1, h2⟩ :=
        ih (show AVLTree.BST (t.remove k) from AVLTree.bst_removeNode hb k)
      refine ⟨?_, h2⟩
      rw [h1, AVLTree.remove, AVLTree.inorder_removeNode hb, eraseKey,
        List.filter_filter]
      apply List.filter_congr
      intro q hq
      by_cases h1 : q.1 = k <;> by_cases h2 : q.1 ∈ ks <;> simp [h1, h2]

theorem mem_dupsAsc_tail :
    ∀ {l : List (ℚ × ℚ)} {x : ℚ}, x ∈ RangeList.dupsAsc l →
      ∃ q ∈ l.tail, q.1 = x := by
  intro l
  induction l with
  | nil => intro x hx; exact absurd hx (by simp [RangeList.dupsAsc])
  | cons a tail ih =>
      intro x hx
      cases tail with
      | nil => exact absurd hx (by simp [RangeList.dupsAsc])
      | cons b rest =>
          rw [RangeList.dupsAsc] at hx
          rcases List.mem_append.mp hx with h | h
          · refine ⟨b, by simp, ?_⟩
            by_cases hc : b.2 = a.2
            · rw [if_pos hc] at h
              simpa using (List.mem_singleton.mp h).symm
            · rw [if_neg hc] at h
              exact absurd h (List.not_mem_nil x)
          · obtain ⟨q, hq, hqx⟩ := ih h
            rw [List.tail_cons] at hq
            exact ⟨q, by simp [hq], hqx⟩

theorem filter_not_mem_dupsAsc {a : ℚ × ℚ} :
    ∀ {rest : List (ℚ × ℚ)}, AVLTree.KeySorted (a :: rest) →
      (rest.filter fun q => q.1 ∉ RangeList.dupsAsc (a :: rest)) =
        cleanupTail a.2 rest := by
  intro rest
  induction rest generalizing a with
  | nil => intro _; rfl
  | cons b rest' ih =>
      intro hs
      have hs' : AVLTree.KeySorted (b :: rest') :=
        (List.pairwise_cons.mp hs).2
      have hbr : ∀ q ∈ rest', b.1 < q.1 := (List.pairwise_cons.mp hs').1
      have hbR : (b.1 ∈ RangeList.dupsAsc (a :: b :: rest')) ↔ b.2 = a.2 := by
        rw [RangeList.dupsAsc]
        constructor
        · intro h
          rcases List.mem_append.mp h with h | h
          · by_cases hc : b.2 = a.2
            · exact hc
            · rw [if_neg hc] at h
              exact absurd h (List.not_mem_nil _)
          · obtain ⟨q, hq, hqx⟩ := mem_dupsAsc_tail h
            rw [List.tail_cons] at hq
            exact absurd hqx (ne_of_gt (hbr q hq))
        · intro h
          exact List.mem_append.mpr (Or.inl (by simp [h]))
      have hqR : ∀ q ∈ rest',
          ((q.1 ∉ RangeList.dupsAsc (a :: b :: rest')) ↔
            (q.1 ∉ RangeList.dupsAsc (b :: rest'))) := by
        intro q hq
        rw [RangeList.dupsAsc, List.mem_append]
        constructor
        · intro h hmem
          exact h (Or.inr hmem)
        · intro h hmem
          rcases hmem with hm | hm
          · by_cases hc : b.2 = a.2
            · rw [if_pos hc] at hm
              exact absurd (List.mem_singleton.mp hm)
                (ne_of_gt (hbr q hq))
            · rw [if_neg hc] at hm
              exact absurd hm (List.not_mem_nil _)
          · exact h hm
      rw [cleanupTail]
      by_cases hc : b.2 = a.2
      · rw [if_pos hc, List.nil_append,
          List.filter_cons_of_neg (by simpa using hbR.mpr hc),
          List.filter_congr fun q hq => decide_eq_decide.mpr (hqR q hq),
          ih hs']
      · have hbnot : b.1 ∉ RangeList.dupsAsc (a :: b :: rest') :=
          fun hm => hc (hbR.mp hm)
        rw [if_neg hc, List.singleton_append,
          List.filter_cons_of_pos (by simpa using hbnot),
          List.filter_congr fun q hq => decide_eq_decide.mpr (hqR q hq),
          ih hs']

theorem filter_not_mem_toRemove_cons {a : ℚ × ℚ} {rest : List (ℚ × ℚ)}
    (hs : AVLTree.KeySorted (a :: rest)) :
    ((a :: rest).filter fun q => q.1 ∉
        ((if a.2 = 0 then [a.1] else []) ++
          (RangeList.dupsAsc (a :: rest)).reverse)) =
      cleanupList (a :: rest) := by
  have hs' := hs
  rw [AVLTree.KeySorted, List.pairwise_cons] at hs'
  have hnr : ((a :: rest).filter fun q => q.1 ∉
      ((if a.2 = 0 then [a.1] else []) ++
        (RangeList.dupsAsc (a :: rest)).reverse)) =
      (a :: rest).filter fun q => q.1 ∉
        ((if a.2 = 0 then [a.1] else []) ++ RangeList.dupsAsc (a :: rest)) := by
    apply List.filter_congr
    intro q hq
    apply decide_eq_decide.mpr
    rw [List.mem_append, List.mem_append, List.mem_reverse]
  rw [hnr]
  have haR : (a.1 ∈
      ((if a.2 = 0 then [a.1] else []) ++
        RangeList.dupsAsc (a :: rest))) ↔ a.2 = 0 := by
    rw [List.mem_append]
    constructor
    · intro h
      rcases h with h | h
      · by_cases hc : a.2 = 0
        · exact hc
        · rw [if_neg hc] at h
          exact absurd h (List.not_mem_nil _)
      · obtain ⟨q, hq, hqx⟩ := mem_dupsAsc_tail h
        rw [List.tail_cons] at hq
        exact absurd hqx (ne_of_gt (hs'.1 q hq))
    · intro h
      exact Or.inl (by simp [h])
  have hqR : ∀ q ∈ rest,
      ((q.1 ∉ ((if a.2 = 0 then [a.1] else []) ++
          RangeList.dupsAsc (a :: rest))) ↔
        (q.1 ∉ RangeList.dupsAsc (a :: rest))) := by
    intro q hq
    rw [List.mem_append]
    constructor
    · intro h hmem
      exact h (Or.inr hmem)
    · intro h hmem
      rcases hmem with hm | hm
      · by_cases hc : a.2 = 0
        · rw [if_pos hc] at hm
          exact absurd (List.mem_singleton.mp hm)
            (ne_of_gt (hs'.1 q hq))
        · rw [if_neg hc] at hm
          exact absurd hm (List.not_mem_nil _)
      · exact h hm
  rw [cleanupList]
  by_cases hc : a.2 = 0
  · rw [List.filter_cons_of_neg (by
        simp only [decide_eq_true_eq, not_not]
        exact haR.mpr hc),
      List.filter_congr fun q hq => decide_eq_decide.mpr (hqR q hq),
      filter_not_mem_dupsAsc hs, if_pos hc, List.nil_append]
  · have hanot : a.1 ∉ ((if a.2 = 0 then [a.1] else []) ++
        RangeList.dupsAsc (a :: rest)) := fun hm => hc (haR.mp hm)
    rw [List.filter_cons_of_pos (by
        simp only [decide_eq_true_eq]
        exact hanot),
      List.filter_congr fun q hq => decide_eq_decide.mpr (hqR q hq),
      filter_not_mem_dupsAsc hs, if_neg hc, List.singleton_append]

theorem cleanup_spec {t : AVLTree} (hb : AVLTree.BST t) :
    ((RangeList.cleanupRedundantPoints t).inOrderTraversal =
      if t.inOrderTraversal.length ≤ 1 then t.inOrderTraversal
      else cleanupList t.inOrderTraversal) ∧
    AVLTree.BST (RangeList.cleanupRedundantPoints t) := by
  have hbody : RangeList.cleanupRedundantPoints t =
      (if t.inOrderTraversal.length ≤ 1 then t
       else ((match t.inOrderTraversal with
              | p :: _ => if p.2 = 0 then [p.1] else []
              | [] => []) ++
              (RangeList.dupsAsc t.inOrderTraversal).reverse).foldl
            (fun tr k => tr.remove k) t) := rfl
  rw [hbody]
  by_cases hlen : t.inOrderTraversal.length ≤ 1
  · rw [if_pos hlen, if_pos hlen]
    exact ⟨rfl, hb⟩
  · rw [if_neg hlen, if_neg hlen]
    obtain ⟨h1, h2⟩ := inorder_foldl_remove _ hb
    refine ⟨h1.trans ?_, h2⟩
    have hsort := AVLTree.sorted_inorder hb
    cases hps : t.inOrderTraversal with
    | nil => rfl
    | cons p rest =>
        rw [hps] at hsort
        exact filter_not_mem_toRemove_cons hsort

namespace AVLTree

/-! ## Keys-in-range collection -/
theorem collect_perm {t : AVLTree} (hb : BST t) (fromKey toKey : ℚ) :
    (t.collectKeysInRange fromKey toKey).Perm
      ((keysList t).filter fun k => fromKey ≤ k ∧ k ≤ toKey) := by
  induction t with
  | nil => exact List.Perm.refl []
  | node nk nv nh l r ihl ihr =>
      cases hb with
      | node hl hr bl br =>
          have hlk : ∀ q ∈ l.inOrderTraversal, q.1 < nk := forTree_iff.mp hl
          have hrk : ∀ q ∈ r.inOrderTraversal, nk < q.1 := forTree_iff.mp hr
          have hkeys : keysList (AVLTree.node nk nv nh l r) =
              keysList l ++ nk :: keysList r := by
            rw [keysList, inOrderTraversal, List.map_append, List.map_cons]
            rfl
          have hmid : (if fromKey < nk
                then l.collectKeysInRange fromKey toKey else []).Perm
              ((keysList l).filter fun k => fromKey ≤ k ∧ k ≤ toKey) := by
            by_cases hf : fromKey < nk
            · rw [if_pos hf]
              exact ihl bl
            · rw [if_neg hf]
              rw [List.filter_eq_nil_iff.mpr fun k hk => by
                obtain ⟨q, hq, rfl⟩ := List.mem_map.mp hk
                simp only [decide_eq_true_eq, not_and]
                intro hfk
                exact absurd ((hlk q hq).trans_le (not_lt.mp hf))
                  (not_lt.mpr hfk)]
          have htail : (if toKey > nk
                then r.collectKeysInRange fromKey toKey else []).Perm
              ((keysList r).filter fun k => fromKey ≤ k ∧ k ≤ toKey) := by
            by_cases ht : toKey > nk
            · rw [if_pos ht]
              exact ihr br
            · rw [if_neg ht]
              rw [List.filter_eq_nil_iff.mpr fun k hk => by
                obtain ⟨q, hq, rfl⟩ := List.mem_map.mp hk
                simp only [decide_eq_true_eq, not_and]
                intro _
                exact not_le.mpr ((not_lt.mp ht).trans_lt (hrk q hq))]
          rw [collectKeysInRange, hkeys, List.filter_append, List.filter_cons]
          by_cases hin : fromKey ≤ nk ∧ nk ≤ toKey
          · rw [if_pos (show nk ≥ fromKey ∧ nk ≤ toKey from ⟨hin.1, hin.2⟩),
              if_pos (show decide (fromKey ≤ nk ∧ nk ≤ toKey) = true by
                simpa using hin),
              List.append_assoc]
            exact (List.Perm.append_left [nk] (hmid.append htail)).trans
              (@List.perm_middle ℚ nk
                ((keysList l).filter fun k => fromKey ≤ k ∧ k ≤ toKey)
                ((keysList r).filter fun k => fromKey ≤ k ∧ k ≤ toKey)).symm
          · rw [if_neg (show ¬ (nk ≥ fromKey ∧ nk ≤ toKey) from
                fun hc => hin ⟨hc.1, hc.2⟩),
              if_neg (show ¬ (decide (fromKey ≤ nk ∧ nk ≤ toKey) = true) by
                simpa using hin),
              List.nil_append]
            exact hmid.append htail

theorem getKeysInRange_perm {t : AVLTree} (hb : BST t) (fromKey toKey : ℚ) :
    (t.getKeysInRange fromKey toKey).Perm
      ((keysList t).filter fun k => fromKey ≤ k ∧ k ≤ toKey) :=
  collect_perm hb fromKey toKey

theorem nodup_keysList {t : AVLTree} (hb : BST t) : (keysList t).Nodup :=
  ((keySorted_iff_keys.mp (sorted_inorder hb)).imp fun h => ne_of_lt h)

theorem mem_getKeysInRange {t : AVLTree} (hb : BST t) {fromKey toKey k : ℚ} :
    k ∈ t.getKeysInRange fromKey toKey ↔
      k ∈ keysList t ∧ fromKey ≤ k ∧ k ≤ toKey := by
  rw [(getKeysInRange_perm hb fromKey toKey).mem_iff, List.mem_filter]
  simp

theorem nodup_getKeysInRange {t : AVLTree} (hb : BST t) (fromKey toKey : ℚ) :
    (t.getKeysInRange fromKey toKey).Nodup :=
  (getKeysInRange_perm hb fromKey toKey).nodup_iff.mpr
    ((nodup_keysList hb).filter _)

end AVLTree

theorem key_unique {ps : List (ℚ × ℚ)} (hs : AVLTree.KeySorted ps)
    {p v w : ℚ} (hv : (p, v) ∈ ps) (hw : (p, w) ∈ ps) : v = w := by
  induction ps with
  | nil => exact absurd hv (List.not_mem_nil _)
  | cons q rest ih =>
      rw [AVLTree.KeySorted, List.pairwise_cons] at hs
      rcases List.mem_cons.mp hv with rfl | hv'
      · rcases List.mem_cons.mp hw with h | hw'
        · exact (Prod.mk.injEq _ _ _ _ ▸ h.symm).2
        · exact absurd rfl (ne_of_lt (hs.1 (p, w) hw') :
            ((p, v).1 : ℚ) ≠ (p, w).1)
      · rcases List.mem_cons.mp hw with rfl | hw'
        · exact absurd rfl (ne_of_lt (hs.1 (p, v) hv') :
            ((p, w).1 : ℚ) ≠ (p, v).1)
        · exact ih hs.2 hv' hw'

theorem mapValueAt_eq_bumpKey {ps : List (ℚ × ℚ)} (hs : AVLTree.KeySorted ps)
    {p v amount : ℚ} (hm : (p, v) ∈ ps) :
    mapValueAt p (v + amount) ps = bumpKey ps p amount := by
  rw [mapValueAt, bumpKey]
  apply List.map_congr_left
  intro q hq
  by_cases h : q.1 = p
  · rw [if_pos h, if_pos h]
    have hq' : ((p : ℚ), q.2) ∈ ps := by
      have : (q.1, q.2) = q := rfl
      rw [← h, this]
      exact hq
    rw [key_unique hs hm hq', h]
  · rw [if_neg h, if_neg h]

theorem keys_bumpAll (pts : List ℚ) (fromKey toKey amount : ℚ)
    (ps : List (ℚ × ℚ)) :
    (bumpAll pts fromKey toKey amount ps).map Prod.fst = ps.map Prod.fst := by
  rw [bumpAll, List.map_map]
  apply List.map_congr_left
  intro q _
  by_cases h : q.1 ∈ pts ∧ (q.1 = fromKey ∨ q.1 < toKey) <;>
    simp [Function.comp, h]

theorem keys_adjustMap (fromKey toKey amount : ℚ) (ps : List (ℚ × ℚ)) :
    (adjustMap fromKey toKey amount ps).map Prod.fst = ps.map Prod.fst := by
  rw [adjustMap, List.map_map]
  apply List.map_congr_left
  intro q _
  by_cases h : fromKey ≤ q.1 ∧ q.1 < toKey <;> simp [Function.comp, h]

theorem keySorted_adjustMap {ps : List (ℚ × ℚ)}
    (hs : AVLTree.KeySorted ps) (fromKey toKey amount : ℚ) :
    AVLTree.KeySorted (adjustMap fromKey toKey amount ps) := by
  rw [AVLTree.keySorted_iff_keys, keys_adjustMap]
  exact AVLTree.keySorted_iff_keys.mp hs

theorem bumpAll_nil (fromKey toKey amount : ℚ) (ps : List (ℚ × ℚ)) :
    bumpAll [] fromKey toKey amount ps = ps := by
  rw [bumpAll]
  conv_rhs => rw [← List.map_id ps]
  apply List.map_congr_left
  intro q _
  rw [if_neg fun hc => List.not_mem_nil q.1 hc.1]
  rfl

theorem adjustStep_none {tr : AVLTree} {position : ℚ}
    (hf : tr.find position = none) (fromKey toKey amount : ℚ) :
    RangeList.adjustStep fromKey toKey amount tr position = tr := by
  rw [RangeList.adjustStep, hf]

theorem adjustStep_some_hit {tr : AVLTree} {position : ℚ} {n : ℚ × ℚ}
    (hf : tr.find position = some n) {fromKey toKey : ℚ} (amount : ℚ)
    (hcond : position = fromKey ∨ position < toKey) :
    RangeList.adjustStep fromKey toKey amount tr position =
      tr.update position (n.2 + amount) := by
  rw [RangeList.adjustStep, hf]
  show (if position = fromKey then tr.update position (n.2 + amount)
    else if position < toKey then tr.update position (n.2 + amount)
    else tr) = _
  by_cases hc1 : position = fromKey
  · rw [if_pos hc1]
  · rw [if_neg hc1, if_pos (hcond.resolve_left hc1)]

theorem adjustStep_some_miss {tr : AVLTree} {position : ℚ} {n : ℚ × ℚ}
    (hf : tr.find position = some n) {fromKey toKey : ℚ} (amount : ℚ)
    (hcond : ¬ (position = fromKey ∨ position < toKey)) :
    RangeList.adjustStep fromKey toKey amount tr position = tr := by
  rw [RangeList.adjustStep, hf]
  show (if position = fromKey then tr.update position (n.2 + amount)
    else if position < toKey then tr.update position (n.2 + amount)
    else tr) = _
  rw [if_neg fun hc1 => hcond (Or.inl hc1),
    if_neg fun hc2 => hcond (Or.inr hc2)]

theorem adjust_fold (fromKey toKey amount : ℚ) :
    ∀ (pts : List ℚ) {t : AVLTree}, AVLTree.BST t → pts.Nodup →
      ((pts.foldl (RangeList.adjustStep fromKey toKey amount)
          t).inOrderTraversal =
        bumpAll pts fromKey toKey amount t.inOrderTraversal) ∧
      AVLTree.BST (pts.foldl (RangeList.adjustStep fromKey toKey amount) t) := by
  intro pts
  induction pts with
  | nil =>
      intro t hb _
      rw [List.foldl_nil, bumpAll_nil]
      exact ⟨rfl, hb⟩
  | cons p pts ih =>
      intro t hb hnd
      have hnd' : pts.Nodup := (List.nodup_cons.mp hnd).2
      have hpnot : p ∉ pts := (List.nodup_cons.mp hnd).1
      rw [List.foldl_cons]
      cases hf : t.find p with
      | none =>
          have hknone : ∀ q ∈ t.inOrderTraversal, q.1 ≠ p :=
            (AVLTree.find_eq_none hb).mp hf
          rw [adjustStep_none hf]
          obtain ⟨h1, h2⟩ := ih hb hnd'
          refine ⟨?_, h2⟩
          rw [h1, bumpAll, bumpAll]
          apply List.map_congr_left
          intro q hq
          have hqp : q.1 ≠ p := hknone q hq
          by_cases hc : q.1 ∈ pts ∧ (q.1 = fromKey ∨ q.1 < toKey)
          · rw [if_pos hc, if_pos ⟨List.mem_cons_of_mem p hc.1, hc.2⟩]
          · rw [if_neg hc, if_neg fun hc2 =>
              hc ⟨(List.mem_cons.mp hc2.1).resolve_left hqp, hc2.2⟩]
      | some n =>
          obtain ⟨hn1, hn2⟩ := (AVLTree.find_eq_some hb).mp hf
          have hmem : ((p : ℚ), n.2) ∈ t.inOrderTraversal := by
            have hpr : (n.1, n.2) = n := rfl
            rw [← hn1, hpr]
            exact hn2
          by_cases hcond : p = fromKey ∨ p < toKey
          · rw [adjustStep_some_hit hf amount hcond]
            obtain ⟨h1, h2⟩ := ih (AVLTree.bst_update hb p (n.2 + amount)) hnd'
            refine ⟨?_, h2⟩
            rw [h1, AVLTree.inorder_update hb,
              mapValueAt_eq_bumpKey (AVLTree.sorted_inorder hb) hmem,
              bumpAll, bumpKey, List.map_map, bumpAll]
            apply List.map_congr_left
            intro q hq
            by_cases hqp : q.1 = p
            · have h1mem : q.1 ∈ p :: pts := by
                rw [hqp]
                exact List.mem_cons_self p pts
              simp only [Function.comp_apply, if_pos hqp]
              rw [if_neg fun hc => hpnot (hqp ▸ hc.1),
                if_pos ⟨h1mem, hqp ▸ hcond⟩]
            · simp only [Function.comp_apply, if_neg hqp]
              by_cases hc : q.1 ∈ pts ∧ (q.1 = fromKey ∨ q.1 < toKey)
              · rw [if_pos hc, if_pos ⟨List.mem_cons_of_mem p hc.1, hc.2⟩]
              · rw [if_neg hc, if_neg fun hc2 =>
                  hc ⟨(List.mem_cons.mp hc2.1).resolve_left hqp, hc2.2⟩]
          · rw [adjustStep_some_miss hf amount hcond]
            obtain ⟨h1, h2⟩ := ih hb hnd'
            refine ⟨?_, h2⟩
            rw [h1, bumpAll, bumpAll]
            apply List.map_congr_left
            intro q hq
            by_cases hqp : q.1 = p
            · rw [if_neg fun hc => hpnot (hqp ▸ hc.1),
                if_neg fun hc => hcond (hqp ▸ hc.2)]
            · by_cases hc : q.1 ∈ pts ∧ (q.1 = fromKey ∨ q.1 < toKey)
              · rw [if_pos hc, if_pos ⟨List.mem_cons_of_mem p hc.1, hc.2⟩]
              · rw [if_neg hc, if_neg fun hc2 =>
                  hc ⟨(List.mem_cons.mp hc2.1).resolve_left hqp, hc2.2⟩]

theorem adjust_spec {t : AVLTree} (hb : AVLTree.BST t) {fromKey toKey : ℚ}
    (amount : ℚ) (hft : fromKey < toKey) :
    ((RangeList.adjustIntensities t fromKey toKey amount).inOrderTraversal =
      adjustMap fromKey toKey amount t.inOrderTraversal) ∧
    AVLTree.BST (RangeList.adjustIntensities t fromKey toKey amount) := by
  obtain ⟨h1, h2⟩ := adjust_fold fromKey toKey amount
    (t.getKeysInRange fromKey toKey) hb
    (AVLTree.nodup_getKeysInRange hb fromKey toKey)
  rw [RangeList.adjustIntensities]
  refine ⟨h1.trans ?_, h2⟩
  rw [bumpAll, adjustMap]
  apply List.map_congr_left
  intro q hq
  have hqk : q.1 ∈ AVLTree.keysList t := List.mem_map_of_mem Prod.fst hq
  have hmemiff : q.1 ∈ t.getKeysInRange fromKey toKey ↔
      fromKey ≤ q.1 ∧ q.1 ≤ toKey := by
    rw [AVLTree.mem_getKeysInRange hb]
    exact and_iff_right hqk
  by_cases hc : fromKey ≤ q.1 ∧ q.1 < toKey
  · rw [if_pos ⟨hmemiff.mpr ⟨hc.1, hc.2.le⟩, Or.inr hc.2⟩, if_pos hc]
  · rw [if_neg ?_, if_neg hc]
    rintro ⟨hin, hcnd⟩
    rcases hcnd with he | hlt
    · exact hc ⟨he.ge, he.trans_lt hft⟩
    · exact hc ⟨(hmemiff.mp hin).1, hlt⟩

theorem adjustMap_eq_self {fromKey toKey amount : ℚ} {ps : List (ℚ × ℚ)}
    (h : ∀ q ∈ ps, ¬ (fromKey ≤ q.1 ∧ q.1 < toKey)) :
    adjustMap fromKey toKey amount ps = ps := by
  rw [adjustMap]
  conv_rhs => rw [← List.map_id ps]
  apply List.map_congr_left
  intro q hq
  rw [if_neg (h q hq)]
  rfl

theorem intensityAux_default_irrel {x : ℚ} {ps : List (ℚ × ℚ)}
    (hs : AVLTree.KeySorted ps) (hex : ∃ q ∈ ps, q.1 ≤ x) (d d' : ℚ) :
    intensityAux d ps x = intensityAux d' ps x := by
  cases ps with
  | nil =>
      obtain ⟨q, hq, _⟩ := hex
      exact absurd hq (List.not_mem_nil q)
  | cons a rest =>
      obtain ⟨k, v⟩ := a
      rw [AVLTree.KeySorted, List.pairwise_cons] at hs
      obtain ⟨q, hq, hqx⟩ := hex
      have hkx : k ≤ x := by
        rcases List.mem_cons.mp hq with rfl | hq'
        · exact hqx
        · exact (hs.1 q hq').le.trans hqx
      rw [intensityAux, intensityAux, if_neg (not_lt.mpr hkx),
        if_neg (not_lt.mpr hkx)]

theorem intensityAux_bump_shift {fromKey toKey amount x : ℚ} :
    ∀ {ps : List (ℚ × ℚ)},
      (∀ q ∈ ps, q.1 ≤ x → (fromKey ≤ q.1 ∧ q.1 < toKey)) → ∀ d,
      intensityAux (d + amount) (adjustMap fromKey toKey amount ps) x =
        intensityAux d ps x + amount := by
  intro ps
  induction ps with
  | nil => intro _ d; rfl
  | cons a rest ih =>
      intro h d
      obtain ⟨k, v⟩ := a
      rw [adjustMap, List.map_cons]
      by_cases hxk : x < k
      · by_cases hc : fromKey ≤ k ∧ k < toKey
        · rw [if_pos hc, intensityAux, if_pos hxk, intensityAux, if_pos hxk]
        · rw [if_neg hc, intensityAux, if_pos hxk, intensityAux, if_pos hxk]
      · have hc : fromKey ≤ k ∧ k < toKey := h (k, v) (by simp) (not_lt.mp hxk)
        rw [if_pos hc, intensityAux, if_neg hxk, intensityAux, if_neg hxk]
        exact ih (fun q hq hqx => h q (by simp [hq]) hqx) v

theorem intensityAux_adjustMap_low {fromKey toKey amount x : ℚ}
    (hx : x < fromKey) :
    ∀ (ps : List (ℚ × ℚ)) (d : ℚ),
      intensityAux d (adjustMap fromKey toKey amount ps) x =
        intensityAux d ps x := by
  intro ps
  induction ps with
  | nil => intro d; rfl
  | cons a rest ih =>
      intro d
      obtain ⟨k, v⟩ := a
      rw [adjustMap, List.map_cons]
      by_cases hc : fromKey ≤ k ∧ k < toKey
      · have hxk : x < k := hx.trans_le hc.1
        rw [if_pos hc, intensityAux, if_pos hxk, intensityAux, if_pos hxk]
      · rw [if_neg hc, intensityAux, intensityAux]
        by_cases hxk : x < k
        · rw [if_pos hxk, if_pos hxk]
        · rw [if_neg hxk, if_neg hxk]
          exact ih v

theorem intensityAux_adjustMap_high {fromKey toKey amount x : ℚ}
    (hx : toKey ≤ x) :
    ∀ {ps : List (ℚ × ℚ)}, AVLTree.KeySorted ps →
      (∃ w, (toKey, w) ∈ ps) → ∀ d,
      intensityAux d (adjustMap fromKey toKey amount ps) x =
        intensityAux d ps x := by
  intro ps
  induction ps with
  | nil =>
      rintro _ ⟨w, hw⟩ d
      exact absurd hw (List.not_mem_nil _)
  | cons a rest ih =>
      rintro hs ⟨w, hw⟩ d
      obtain ⟨k, v⟩ := a
      rw [AVLTree.KeySorted, List.pairwise_cons] at hs
      rcases List.mem_cons.mp hw with heq | hw'
      · obtain ⟨h1, h2⟩ := Prod.mk.injEq toKey w k v ▸ heq
        subst h1
        rw [adjustMap, List.map_cons,
          if_neg fun hc => absurd hc.2 (lt_irrefl toKey)]
        rw [show List.map (fun q =>
            if fromKey ≤ q.1 ∧ q.1 < toKey then (q.1, q.2 + amount) else q)
            rest = rest from adjustMap_eq_self fun q hq =>
              fun hc => absurd hc.2 (not_lt.mpr (hs.1 q hq).le)]
      · have hk : k < toKey := by simpa using hs.1 (toKey, w) hw'
        have hxk : ¬ x < k := not_lt.mpr (hk.le.trans hx)
        rw [adjustMap, List.map_cons]
        by_cases hc : fromKey ≤ k ∧ k < toKey
        · rw [if_pos hc, intensityAux, if_neg hxk, intensityAux, if_neg hxk]
          rw [show intensityAux (v + amount)
              (List.map (fun q => if fromKey ≤ q.1 ∧ q.1 < toKey
                then (q.1, q.2 + amount) else q) rest) x =
              intensityAux (v + amount) rest x from
              ih hs.2 ⟨w, hw'⟩ (v + amount)]
          exact intensityAux_default_irrel hs.2 ⟨(toKey, w), hw', hx⟩ _ _
        · rw [if_neg hc, intensityAux, if_neg hxk, intensityAux, if_neg hxk]
          exact ih hs.2 ⟨w, hw'⟩ v

theorem intensityAux_adjustMap_mid {fromKey toKey amount x : ℚ}
    (hfx : fromKey ≤ x) (hxt : x < toKey) :
    ∀ {ps : List (ℚ × ℚ)}, AVLTree.KeySorted ps →
      (∃ w, (fromKey, w) ∈ ps) → ∀ d,
      intensityAux d (adjustMap fromKey toKey amount ps) x =
        intensityAux d ps x + amount := by
  intro ps
  induction ps with
  | nil =>
      rintro _ ⟨w, hw⟩ d
      exact absurd hw (List.not_mem_nil _)
  | cons a rest ih =>
      rintro hs ⟨w, hw⟩ d
      obtain ⟨k, v⟩ := a
      rw [AVLTree.KeySorted, List.pairwise_cons] at hs
      rcases List.mem_cons.mp hw with heq | hw'
      · obtain ⟨h1, h2⟩ := Prod.mk.injEq fromKey w k v ▸ heq
        subst h1
        have hxk : ¬ x < fromKey := not_lt.mpr hfx
        rw [adjustMap, List.map_cons,
          if_pos ⟨le_refl fromKey, hfx.trans_lt hxt⟩,
          intensityAux, if_neg hxk, intensityAux, if_neg hxk]
        exact intensityAux_bump_shift
          (fun q hq hqx => ⟨(hs.1 q hq).le, lt_of_le_of_lt hqx hxt⟩) v
      · have hk : k < fromKey := by simpa using hs.1 (fromKey, w) hw'
        have hxk : ¬ x < k := not_lt.mpr (hk.le.trans hfx)
        rw [adjustMap, List.map_cons,
          if_neg fun hc => absurd hc.1 (not_le.mpr hk),
          intensityAux, if_neg hxk, intensityAux, if_neg hxk]
        exact ih hs.2 ⟨w, hw'⟩ v

theorem intensityAux_adjustMap {ps : List (ℚ × ℚ)}
    (hs : AVLTree.KeySorted ps) {fromKey toKey : ℚ} (amount : ℚ)
    (hto : ∃ w, (toKey, w) ∈ ps) (hf : ∃ w, (fromKey, w) ∈ ps) (x : ℚ) :
    intensityAux 0 (adjustMap fromKey toKey amount ps) x =
      if fromKey ≤ x ∧ x < toKey then intensityAux 0 ps x + amount
      else intensityAux 0 ps x := by
  by_cases h1 : x < fromKey
  · rw [if_neg fun hc => absurd hc.1 (not_le.mpr h1),
      intensityAux_adjustMap_low h1]
  · by_cases h2 : x < toKey
    · rw [if_pos ⟨not_lt.mp h1, h2⟩]
      exact intensityAux_adjustMap_mid (not_lt.mp h1) h2 hs hf 0
    · rw [if_neg fun hc => absurd hc.2 h2]
      exact intensityAux_adjustMap_high (not_lt.mp h2) hs hto 0

/-! ## Dominant-key and membership utilities -/
theorem mem_mapValueAt_of_ne {ps : List (ℚ × ℚ)} {x : ℚ × ℚ} {k v : ℚ}
    (hx : x ∈ ps) (hne : x.1 ≠ k) : x ∈ mapValueAt k v ps := by
  rw [mapValueAt]
  exact List.mem_map.mpr ⟨x, hx, by rw [if_neg hne]⟩

theorem mem_mapValueAt_self {ps : List (ℚ × ℚ)} {k v w : ℚ}
    (hx : (k, w) ∈ ps) : (k, v) ∈ mapValueAt k v ps := by
  rw [mapValueAt]
  exact List.mem_map.mpr ⟨(k, w), hx, by rw [if_pos rfl]⟩

theorem key_of_mem_mapValueAt {ps : List (ℚ × ℚ)} {q : ℚ × ℚ} {k v : ℚ}
    (hq : q ∈ mapValueAt k v ps) : ∃ q' ∈ ps, q'.1 = q.1 := by
  rw [mapValueAt] at hq
  obtain ⟨q', hq', hmap⟩ := List.mem_map.mp hq
  refine ⟨q', hq', ?_⟩
  by_cases h : q'.1 = k
  · rw [if_pos h] at hmap
    rw [← hmap, h]
  · rw [if_neg h] at hmap
    rw [hmap]

theorem sorted_le_getLast? {ps : List (ℚ × ℚ)} (hs : AVLTree.KeySorted ps) :
    ∀ {q : ℚ × ℚ}, q ∈ ps → ∃ m, ps.getLast? = some m ∧ q.1 ≤ m.1 := by
  induction ps with
  | nil => intro q hq; exact absurd hq (List.not_mem_nil q)
  | cons a rest ih =>
      intro q hq
      have hs1 : ∀ q' ∈ rest, a.1 < q'.1 := (List.pairwise_cons.mp hs).1
      have hs2 : AVLTree.KeySorted rest := (List.pairwise_cons.mp hs).2
      cases hrest : rest with
      | nil =>
          rcases List.mem_cons.mp hq with rfl | hq'
          · exact ⟨q, by rw [List.getLast?_singleton], le_refl _⟩
          · rw [hrest] at hq'
            exact absurd hq' (List.not_mem_nil q)
      | cons b rest' =>
          have hb : b ∈ rest := by
            rw [hrest]
            exact List.mem_cons_self b rest'
          rcases List.mem_cons.mp hq with rfl | hq'
          · obtain ⟨m, hm, hbm⟩ := ih hs2 hb
            refine ⟨m, ?_, (hs1 b hb).le.trans hbm⟩
            rw [List.getLast?_cons_cons, ← hrest, hm]
          · obtain ⟨m, hm, hqm⟩ := ih hs2 hq'
            refine ⟨m, ?_, hqm⟩
            rw [List.getLast?_cons_cons, ← hrest, hm]

theorem intensityAux_dominant {ps : List (ℚ × ℚ)} (hs : AVLTree.KeySorted ps)
    {k v x : ℚ} (hm : (k, v) ∈ ps) (hkx : k ≤ x)
    (hdom : ∀ q ∈ ps, q.1 ≤ x → q.1 ≤ k) : intensityAux 0 ps x = v := by
  rw [intensityAux_eq hs]
  have hfe : ps.filter (fun q => q.1 ≤ x) = ps.filter fun q => q.1 ≤ k := by
    apply List.filter_congr
    intro q hq
    apply decide_eq_decide.mpr
    exact ⟨fun h => hdom q hq h, fun h => h.trans hkx⟩
  rw [hfe, filter_le_of_mem hs hm, List.getLast?_append_cons,
    List.getLast?_singleton]

theorem intensityAux_no_keys {ps : List (ℚ × ℚ)} {x d : ℚ}
    (h : ∀ q ∈ ps, x < q.1) : intensityAux d ps x = d :=
  intensityAux_of_lt_all h

theorem intensityAux_mapValueAt_high {k v x : ℚ} (hxk : x < k) :
    ∀ (ps : List (ℚ × ℚ)) (d : ℚ),
      intensityAux d (mapValueAt k v ps) x = intensityAux d ps x := by
  intro ps
  induction ps with
  | nil => intro d; rfl
  | cons a rest ih =>
      intro d
      obtain ⟨k2, v2⟩ := a
      rw [mapValueAt, List.map_cons]
      by_cases h : k2 = k
      · subst h
        rw [if_pos rfl, intensityAux, if_pos hxk, intensityAux, if_pos hxk]
      · rw [if_neg (show ((k2 : ℚ), v2).1 ≠ k from h)]
        rw [intensityAux, intensityAux]
        by_cases hxk2 : x < k2
        · rw [if_pos hxk2, if_pos hxk2]
        · rw [if_neg hxk2, if_neg hxk2]
          exact ih v2

theorem intensityAux_filter_high {x : ℚ} {p : ℚ × ℚ → Bool} :
    ∀ {ps : List (ℚ × ℚ)}, AVLTree.KeySorted ps →
      (∀ q ∈ ps, ¬ p q = true → x < q.1) → ∀ d,
      intensityAux d (ps.filter p) x = intensityAux d ps x := by
  intro ps
  induction ps with
  | nil => intro _ _ d; rfl
  | cons a rest ih =>
      intro hs h d
      rw [AVLTree.KeySorted, List.pairwise_cons] at hs
      obtain ⟨k, v⟩ := a
      by_cases hp : p (k, v) = true
      · rw [List.filter_cons_of_pos hp, intensityAux, intensityAux]
        by_cases hxk : x < k
        · rw [if_pos hxk, if_pos hxk]
        · rw [if_neg hxk, if_neg hxk]
          exact ih hs.2 (fun q hq hnq => h q (by simp [hq]) hnq) v
      · have hxk : x < k := h (k, v) (by simp) hp
        rw [List.filter_cons_of_neg hp, intensityAux, if_pos hxk]
        rw [intensityAux_no_keys]
        intro q hq
        exact hxk.trans (hs.1 q (List.mem_of_mem_filter hq))

/-! ## Packaged specifications of the RangeList phases -/
theorem ensure_spec {t : AVLTree} (hb : AVLTree.BST t) (p : ℚ) :
    AVLTree.BST (RangeList.ensurePointExists t p) ∧
    (∃ w, (p, w) ∈ (RangeList.ensurePointExists t p).inOrderTraversal) ∧
    (∀ q ∈ t.inOrderTraversal, q.1 ≠ p →
      q ∈ (RangeList.ensurePointExists t p).inOrderTraversal) ∧
    (∀ q ∈ (RangeList.ensurePointExists t p).inOrderTraversal,
      q.1 = p ∨ q ∈ t.inOrderTraversal) ∧
    (∀ x, intensityAux 0 (RangeList.ensurePointExists t p).inOrderTraversal x =
      intensityAux 0 t.inOrderTraversal x) := by
  by_cases hp : ∀ q ∈ t.inOrderTraversal, q.1 ≠ p
  · have hio := RangeList.inorder_ensurePoint_absent hb hp
    refine ⟨RangeList.bst_ensurePoint hb p, ?_, ?_, ?_, ?_⟩
    · refine ⟨intensityAt t.inOrderTraversal p, ?_⟩
      rw [hio]
      exact listInsert_self_mem p _ t.inOrderTraversal
    · intro q hq hqp
      rw [hio]
      exact mem_listInsert_of_mem hq hqp
    · intro q hq
      rw [hio] at hq
      rcases mem_listInsert hq with rfl | hq'
      · exact Or.inl rfl
      · exact Or.inr hq'
    · intro x
      rw [hio, intensityAt_eq_aux (AVLTree.sorted_inorder hb)]
      exact intensityAux_listInsert p (AVLTree.sorted_inorder hb) 0 x
  · push_neg at hp
    obtain ⟨q, hq, hqp⟩ := hp
    have hmem : ((p : ℚ), q.2) ∈ t.inOrderTraversal := by
      have hpr : (q.1, q.2) = q := rfl
      rw [← hqp, hpr]
      exact hq
    have hio := RangeList.ensurePoint_present hb hmem
    rw [hio]
    exact ⟨hb, ⟨q.2, hmem⟩, fun q hq _ => hq, fun q hq => Or.inr hq,
      fun x => rfl⟩

theorem removePoints_fold (fromKey toKey : ℚ) :
    ∀ (pts : List ℚ) {t : AVLTree}, AVLTree.BST t →
      ((pts.foldl (fun tr position =>
          if position > fromKey ∧ position < toKey then tr.remove position
          else tr) t).inOrderTraversal =
        t.inOrderTraversal.filter fun q =>
          ¬ (q.1 ∈ pts ∧ fromKey < q.1 ∧ q.1 < toKey)) ∧
      AVLTree.BST (pts.foldl (fun tr position =>
          if position > fromKey ∧ position < toKey then tr.remove position
          else tr) t) := by
  intro pts
  induction pts with
  | nil =>
      intro t hb
      refine ⟨?_, hb⟩
      rw [List.foldl_nil, List.filter_eq_self.mpr fun q hq => by simp]
  | cons p pts ih =>
      intro t hb
      rw [List.foldl_cons]
      by_cases hc : p > fromKey ∧ p < toKey
      · rw [if_pos hc]
        obtain ⟨h1, h2⟩ :=
          ih (show AVLTree.BST (t.remove p) from AVLTree.bst_removeNode hb p)
        refine ⟨?_, h2⟩
        rw [h1, AVLTree.remove, AVLTree.inorder_removeNode hb, eraseKey,
          List.filter_filter]
        apply List.filter_congr
        intro q hq
        by_cases h1 : q.1 = p
        · subst h1
          simp [hc.1, hc.2]
        · by_cases h2 : q.1 ∈ pts <;>
            by_cases h3 : fromKey < q.1 ∧ q.1 < toKey <;> simp [h1, h2, h3]
      · rw [if_neg hc]
        obtain ⟨h1, h2⟩ := ih hb
        refine ⟨?_, h2⟩
        rw [h1]
        apply List.filter_congr
        intro q hq
        apply decide_eq_decide.mpr
        constructor
        · intro h hmem
          rcases List.mem_cons.mp hmem.1 with rfl | hmm
          · exact hc ⟨hmem.2.1, hmem.2.2⟩
          · exact h ⟨hmm, hmem.2⟩
        · intro h hmem
          exact h ⟨List.mem_cons_of_mem p hmem.1, hmem.2⟩

theorem removePoints_spec {t : AVLTree} (hb : AVLTree.BST t)
    (fromKey toKey : ℚ) :
    ((RangeList.removePointsInRange t fromKey toKey).inOrderTraversal =
      t.inOrderTraversal.filter fun q =>
        ¬ (fromKey < q.1 ∧ q.1 < toKey)) ∧
    AVLTree.BST (RangeList.removePointsInRange t fromKey toKey) := by
  obtain ⟨h1, h2⟩ :=
    removePoints_fold fromKey toKey (t.getKeysInRange fromKey toKey) hb
  rw [RangeList.removePointsInRange]
  refine ⟨h1.trans ?_, h2⟩
  apply List.filter_congr
  intro q hq
  apply decide_eq_decide.mpr
  have hqk : q.1 ∈ AVLTree.keysList t := List.mem_map_of_mem Prod.fst hq
  constructor
  · intro h hmem
    exact h ⟨(AVLTree.mem_getKeysInRange hb).mpr
      ⟨hqk, hmem.1.le, hmem.2.le⟩, hmem⟩
  · intro h hmem
    exact h hmem.2

/-! ## Splitting the intensity function at a stored key -/
theorem keySorted_filter {ps : List (ℚ × ℚ)} (hs : AVLTree.KeySorted ps)
    (p : ℚ × ℚ → Bool) : AVLTree.KeySorted (ps.filter p) :=
  List.Pairwise.filter p hs

theorem intensityAux_append_le {x : ℚ} :
    ∀ {A : List (ℚ × ℚ)}, (∀ a ∈ A, a.1 ≤ x) → ∀ {k v : ℚ}, k ≤ x →
      ∀ (B : List (ℚ × ℚ)) (d : ℚ),
      intensityAux d (A ++ (k, v) :: B) x = intensityAux v B x := by
  intro A
  induction A with
  | nil =>
      intro _ k v hk B d
      rw [List.nil_append, intensityAux, if_neg (not_lt.mpr hk)]
  | cons a rest ih =>
      intro hA k v hk B d
      obtain ⟨ak, av⟩ := a
      rw [List.cons_append, intensityAux,
        if_neg (not_lt.mpr (hA (ak, av) (by simp)))]
      exact ih (fun q hq => hA q (by simp [hq])) hk B av

theorem intensityAux_ge_split {ps : List (ℚ × ℚ)} (hs : AVLTree.KeySorted ps)
    {k v : ℚ} (hm : (k, v) ∈ ps) {x : ℚ} (hk : k ≤ x) :
    intensityAux 0 ps x =
      intensityAux v (ps.filter fun q => k < q.1) x := by
  obtain ⟨A, B, hAB⟩ := List.append_of_mem hm
  subst hAB
  have hA : ∀ a ∈ A, a.1 < k := fun a ha =>
    (List.pairwise_append.mp hs).2.2 a ha (k, v) (List.mem_cons_self (k, v) B)
  have hB : ∀ b ∈ B, k < b.1 :=
    (List.pairwise_cons.mp (List.pairwise_append.mp hs).2.1).1
  have hfe : (A ++ (k, v) :: B).filter (fun q => k < q.1) = B := by
    rw [List.filter_append, List.filter_cons_of_neg (by simp),
      List.filter_eq_nil_iff.mpr fun a ha => by
        simpa using not_lt.mpr (hA a ha).le,
      List.filter_eq_self.mpr fun b hb => by simpa using hB b hb,
      List.nil_append]
  rw [hfe, intensityAux_append_le (fun a ha => ((hA a ha).trans_le hk).le) hk]

theorem filter_low_pipeline {fromKey toKey amount vt x : ℚ}
    (hxf : x < fromKey) (hft : fromKey < toKey) (ps : List (ℚ × ℚ)) :
    (mapValueAt toKey vt (mapValueAt fromKey amount
        (ps.filter fun q => ¬ (fromKey < q.1 ∧ q.1 < toKey)))).filter
        (fun q => q.1 ≤ x) =
      ps.filter fun q => q.1 ≤ x := by
  induction ps with
  | nil => rfl
  | cons a rest ih =>
      by_cases hk : fromKey < a.1 ∧ a.1 < toKey
      · rw [List.filter_cons_of_neg (by simpa using hk),
          List.filter_cons_of_neg
            (by simpa using not_le.mpr (hxf.trans hk.1)), ih]
      · rw [List.filter_cons_of_pos
            (by simp only [decide_eq_true_eq]; exact hk), AVLTree.mapValueAt_cons]
        by_cases h1 : a.1 = fromKey
        · rw [if_pos h1, AVLTree.mapValueAt_cons,
            if_neg (show (fromKey, amount).1 ≠ toKey from hft.ne),
            List.filter_cons_of_neg
              (by simpa using not_le.mpr hxf),
            List.filter_cons_of_neg
              (by simpa [h1] using not_le.mpr hxf), ih]
        · rw [if_neg h1, AVLTree.mapValueAt_cons]
          by_cases h2 : a.1 = toKey
          · rw [if_pos h2,
              List.filter_cons_of_neg
                (by simpa using not_le.mpr (hxf.trans hft)),
              List.filter_cons_of_neg
                (by simpa [h2] using not_le.mpr (hxf.trans hft)), ih]
          · rw [if_neg h2]
            by_cases h3 : a.1 ≤ x
            · rw [List.filter_cons_of_pos (by simpa using h3),
                List.filter_cons_of_pos (by simpa using h3), ih]
            · rw [List.filter_cons_of_neg (by simpa using h3),
                List.filter_cons_of_neg (by simpa using h3), ih]

theorem filter_high_pipeline {fromKey toKey amount vt : ℚ}
    (hft : fromKey < toKey) (ps : List (ℚ × ℚ)) :
    (mapValueAt toKey vt (mapValueAt fromKey amount
        (ps.filter fun q => ¬ (fromKey < q.1 ∧ q.1 < toKey)))).filter
        (fun q => toKey < q.1) =
      ps.filter fun q => toKey < q.1 := by
  induction ps with
  | nil => rfl
  | cons a rest ih =>
      by_cases hk : fromKey < a.1 ∧ a.1 < toKey
      · rw [List.filter_cons_of_neg (by simpa using hk),
          List.filter_cons_of_neg (by simpa using not_lt.mpr hk.2.le), ih]
      · rw [List.filter_cons_of_pos
            (by simp only [decide_eq_true_eq]; exact hk), AVLTree.mapValueAt_cons]
        by_cases h1 : a.1 = fromKey
        · rw [if_pos h1, AVLTree.mapValueAt_cons,
            if_neg (show (fromKey, amount).1 ≠ toKey from hft.ne),
            List.filter_cons_of_neg
              (by simpa using not_lt.mpr hft.le),
            List.filter_cons_of_neg
              (by simpa [h1] using not_lt.mpr hft.le), ih]
        · rw [if_neg h1, AVLTree.mapValueAt_cons]
          by_cases h2 : a.1 = toKey
          · rw [if_pos h2,
              List.filter_cons_of_neg (by simpa using lt_irrefl toKey),
              List.filter_cons_of_neg
                (by simpa [h2] using lt_irrefl toKey), ih]
          · rw [if_neg h2]
            by_cases h3 : toKey < a.1
            · rw [List.filter_cons_of_pos (by simpa using h3),
                List.filter_cons_of_pos (by simpa using h3), ih]
            · rw [List.filter_cons_of_neg (by simpa using h3),
                List.filter_cons_of_neg (by simpa using h3), ih]

/-- Intensity profile of the list-level `set` pipeline: after removing the
interior points and forcing the boundary values, the intensity is `amount`
on `[fromKey, toKey)` and unchanged elsewhere (here `vt` is the value the
sorted list `ps` stores at `toKey`). -/
theorem setList_intensity {ps : List (ℚ × ℚ)} (hs : AVLTree.KeySorted ps)
    {fromKey toKey : ℚ} (hft : fromKey < toKey) {vf vt : ℚ}
    (hvf : (fromKey, vf) ∈ ps) (hvt : (toKey, vt) ∈ ps) (amount x : ℚ) :
    intensityAux 0
      (mapValueAt toKey vt (mapValueAt fromKey amount
        (ps.filter fun q => ¬ (fromKey < q.1 ∧ q.1 < toKey)))) x =
      if fromKey ≤ x ∧ x < toKey then amount
      else intensityAux 0 ps x := by
  have hs3 : AVLTree.KeySorted
      (ps.filter fun q => ¬ (fromKey < q.1 ∧ q.1 < toKey)) :=
    keySorted_filter hs _
  have hs5 : AVLTree.KeySorted
      (mapValueAt toKey vt (mapValueAt fromKey amount
        (ps.filter fun q => ¬ (fromKey < q.1 ∧ q.1 < toKey)))) :=
    AVLTree.keySorted_mapValueAt (AVLTree.keySorted_mapValueAt hs3 _ _) _ _
  have hvf3 : ((fromKey : ℚ), vf) ∈
      ps.filter fun q => ¬ (fromKey < q.1 ∧ q.1 < toKey) :=
    List.mem_filter.mpr ⟨hvf, by simp⟩
  have hvt3 : ((toKey : ℚ), vt) ∈
      ps.filter fun q => ¬ (fromKey < q.1 ∧ q.1 < toKey) :=
    List.mem_filter.mpr ⟨hvt, by simp⟩
  by_cases hx : fromKey ≤ x ∧ x < toKey
  · rw [if_pos hx]
    apply intensityAux_dominant hs5 ?_ hx.1
    · intro q hq hqx
      obtain ⟨q', hq', hq'k⟩ := key_of_mem_mapValueAt hq
      obtain ⟨q'', hq'', hq''k⟩ := key_of_mem_mapValueAt hq'
      have hkeep : ¬ (fromKey < q''.1 ∧ q''.1 < toKey) := by
        have h2 := (List.mem_filter.mp hq'').2
        simp only [decide_eq_true_eq] at h2
        exact h2
      rw [hq''k, hq'k] at hkeep
      by_contra hgt
      exact hkeep ⟨not_le.mp hgt, lt_of_le_of_lt hqx hx.2⟩
    · exact mem_mapValueAt_of_ne
        (mem_mapValueAt_self hvf3) hft.ne
  · rw [if_neg hx]
    rcases not_and_or.mp hx with h1 | h2
    · have hxf : x < fromKey := not_le.mp h1
      have hlow5 : ∀ q ∈ mapValueAt toKey vt (mapValueAt fromKey amount
          (ps.filter fun q => ¬ (fromKey < q.1 ∧ q.1 < toKey))),
          ¬ (fun q : ℚ × ℚ => decide (q.1 ≤ x)) q = true → x < q.1 := by
        intro q _ hnq
        exact not_le.mp (by simpa using hnq)
      have hlowps : ∀ q ∈ ps,
          ¬ (fun q : ℚ × ℚ => decide (q.1 ≤ x)) q = true → x < q.1 := by
        intro q _ hnq
        exact not_le.mp (by simpa using hnq)
      rw [← intensityAux_filter_high hs5 hlow5 0,
        filter_low_pipeline hxf hft,
        intensityAux_filter_high hs hlowps 0]
    · have htx : toKey ≤ x := not_lt.mp h2
      have hm5 : ((toKey : ℚ), vt) ∈
          mapValueAt toKey vt (mapValueAt fromKey amount
            (ps.filter fun q => ¬ (fromKey < q.1 ∧ q.1 < toKey))) :=
        mem_mapValueAt_self (mem_mapValueAt_of_ne hvt3 hft.ne')
      rw [intensityAux_ge_split hs5 hm5 htx,
        filter_high_pipeline hft,
        ← intensityAux_ge_split hs hvt htx]

/-- Semantics of `set` on a BST state with `fromKey < toKey`: the resulting
tree is a BST and its intensity profile is `amount` on `[fromKey, toKey)`
and unchanged elsewhere. -/
theorem set_spec {t : AVLTree} (hb : AVLTree.BST t) {fromKey toKey : ℚ}
    (amount : ℚ) (hft : fromKey < toKey) :
    AVLTree.BST (RangeList.set t fromKey toKey amount) ∧
    ∀ x, intensityAux 0
        (RangeList.set t fromKey toKey amount).inOrderTraversal x =
      if fromKey ≤ x ∧ x < toKey then amount
      else intensityAux 0 t.inOrderTraversal x := by
  obtain ⟨hb1, ⟨vf0, hvf0⟩, hkeep1, hback1, hint1⟩ := ensure_spec hb fromKey
  obtain ⟨hb2, ⟨vt, hvt⟩, hkeep2, hback2, hint2⟩ := ensure_spec hb1 toKey
  have hvf : ((fromKey : ℚ), vf0) ∈
      (RangeList.ensurePointExists (RangeList.ensurePointExists t fromKey) toKey).inOrderTraversal :=
    hkeep2 _ hvf0 hft.ne
  obtain ⟨hio3, hb3⟩ := removePoints_spec hb2 fromKey toKey
  have hb4 := AVLTree.bst_update hb3 fromKey amount
  have hb5 := AVLTree.bst_update hb4 toKey (RangeList.getIntensityAt t toKey)
  have hw : RangeList.getIntensityAt t toKey = vt := by
    rw [getIntensityAt_eq hb toKey,
      intensityAt_eq_aux (AVLTree.sorted_inorder hb),
      ← hint1 toKey, ← hint2 toKey,
      intensityAux_ge_split (AVLTree.sorted_inorder hb2) hvt (le_refl toKey)]
    apply intensityAux_of_lt_all
    intro q hq
    exact of_decide_eq_true (List.mem_filter.mp hq).2
  have hset : RangeList.set t fromKey toKey amount =
      RangeList.cleanupRedundantPoints
        (((RangeList.removePointsInRange
        (RangeList.ensurePointExists (RangeList.ensurePointExists t fromKey) toKey)
        fromKey toKey).update fromKey amount).update toKey
      (RangeList.getIntensityAt t toKey)) := by
    rw [RangeList.set, if_neg (show ¬ fromKey ≥ toKey from not_le.mpr hft)]
  have hps5 : (((RangeList.removePointsInRange
        (RangeList.ensurePointExists (RangeList.ensurePointExists t fromKey) toKey)
        fromKey toKey).update fromKey amount).update toKey
      (RangeList.getIntensityAt t toKey)).inOrderTraversal =
      mapValueAt toKey vt (mapValueAt fromKey amount
        ((RangeList.ensurePointExists (RangeList.ensurePointExists t fromKey) toKey).inOrderTraversal.filter
          fun q => ¬ (fromKey < q.1 ∧ q.1 < toKey))) := by
    rw [AVLTree.inorder_update hb4, AVLTree.inorder_update hb3, hio3, hw]
  have hmain : ∀ x, intensityAux 0 (((RangeList.removePointsInRange
        (RangeList.ensurePointExists (RangeList.ensurePointExists t fromKey) toKey)
        fromKey toKey).update fromKey amount).update toKey
      (RangeList.getIntensityAt t toKey)).inOrderTraversal x =
      if fromKey ≤ x ∧ x < toKey then amount
      else intensityAux 0 t.inOrderTraversal x := by
    intro x
    rw [hps5,
      setList_intensity (AVLTree.sorted_inorder hb2) hft hvf hvt amount x,
      hint2 x, hint1 x]
  obtain ⟨hio6, hb6⟩ := cleanup_spec hb5
  rw [hset]
  refine ⟨hb6, ?_⟩
  intro x
  rw [hio6]
  by_cases hlen : (((RangeList.removePointsInRange
        (RangeList.ensurePointExists (RangeList.ensurePointExists t fromKey) toKey)
        fromKey toKey).update fromKey amount).update toKey
      (RangeList.getIntensityAt t toKey)).inOrderTraversal.length ≤ 1
  · rw [if_pos hlen]
    exact hmain x
  · rw [if_neg hlen,
      intensityAux_cleanupList x (AVLTree.sorted_inorder hb5)]
    exact hmain x

/-- Semantics of `add` on a BST state with `fromKey < toKey`: the resulting
tree is a BST and its intensity profile gains `amount` on `[fromKey, toKey)`
and is unchanged elsewhere. -/
theorem add_spec {t : AVLTree} (hb : AVLTree.BST t) {fromKey toKey : ℚ}
    (amount : ℚ) (hft : fromKey < toKey) :
    AVLTree.BST (RangeList.add t fromKey toKey amount) ∧
    ∀ x, intensityAux 0
        (RangeList.add t fromKey toKey amount).inOrderTraversal x =
      if fromKey ≤ x ∧ x < toKey
      then intensityAux 0 t.inOrderTraversal x + amount
      else intensityAux 0 t.inOrderTraversal x := by
  by_cases hz : amount = 0
  · rw [RangeList.add, if_pos (Or.inr hz)]
    refine ⟨hb, fun x => ?_⟩
    subst hz
    split <;> simp
  · obtain ⟨hb1, ⟨vf0, hvf0⟩, hkeep1, hback1, hint1⟩ := ensure_spec hb fromKey
    obtain ⟨hb2, ⟨vt, hvt⟩, hkeep2, hback2, hint2⟩ := ensure_spec hb1 toKey
    have hvf : ((fromKey : ℚ), vf0) ∈
        (RangeList.ensurePointExists (RangeList.ensurePointExists t fromKey) toKey).inOrderTraversal :=
      hkeep2 _ hvf0 hft.ne
    obtain ⟨hioA, hbA⟩ := adjust_spec hb2 amount hft
    have hadd : RangeList.add t fromKey toKey amount =
        RangeList.cleanupRedundantPoints
          (RangeList.adjustIntensities
        (RangeList.ensurePointExists (RangeList.ensurePointExists t fromKey) toKey)
        fromKey toKey amount) := by
      rw [RangeList.add,
        if_neg (not_or.mpr ⟨show ¬ fromKey ≥ toKey from not_le.mpr hft, hz⟩)]
    have hmain : ∀ x, intensityAux 0
        (RangeList.adjustIntensities
        (RangeList.ensurePointExists (RangeList.ensurePointExists t fromKey) toKey)
        fromKey toKey amount).inOrderTraversal x =
        if fromKey ≤ x ∧ x < toKey
        then intensityAux 0 t.inOrderTraversal x + amount
        else intensityAux 0 t.inOrderTraversal x := by
      intro x
      rw [hioA,
        intensityAux_adjustMap (AVLTree.sorted_inorder hb2) amount
          ⟨vt, hvt⟩ ⟨vf0, hvf⟩ x,
        hint2 x, hint1 x]
    obtain ⟨hio6, hb6⟩ := cleanup_spec hbA
    rw [hadd]
    refine ⟨hb6, ?_⟩
    intro x
    rw [hio6]
    by_cases hlen : (RangeList.adjustIntensities
        (RangeList.ensurePointExists (RangeList.ensurePointExists t fromKey) toKey)
        fromKey toKey amount).inOrderTraversal.length ≤ 1
    · rw [if_pos hlen]
      exact hmain x
    · rw [if_neg hlen,
        intensityAux_cleanupList x (AVLTree.sorted_inorder hbA)]
      exact hmain x

theorem one_lt_length_of_two_mem {ps : List (ℚ × ℚ)} {a b : ℚ × ℚ}
    (ha : a ∈ ps) (hb : b ∈ ps) (hne : a.1 ≠ b.1) : 1 < ps.length := by
  cases ps with
  | nil => exact absurd ha (List.not_mem_nil a)
  | cons x rest =>
      cases rest with
      | nil =>
          rw [List.mem_singleton] at ha hb
          subst ha
          subst hb
          exact absurd rfl hne
      | cons y rest' =>
          simp only [List.length_cons]
          omega

theorem canonical_cleanup {t : AVLTree} (hb : AVLTree.BST t)
    (hlen : 1 < t.inOrderTraversal.length) :
    CanonicalForm (RangeList.cleanupRedundantPoints t).inOrderTraversal := by
  obtain ⟨hio, _⟩ := cleanup_spec hb
  rw [hio, if_neg (not_le.mpr hlen)]
  exact ⟨cleanupList_chain _, cleanupList_head_ne_zero _⟩

/-- After an effective `set`, the exported list is in canonical form. -/
theorem set_canonical {t : AVLTree} (hb : AVLTree.BST t)
    {fromKey toKey : ℚ} (amount : ℚ) (hft : fromKey < toKey) :
    CanonicalForm (RangeList.set t fromKey toKey amount).inOrderTraversal := by
  obtain ⟨hb1, ⟨vf0, hvf0⟩, hkeep1, hback1, hint1⟩ := ensure_spec hb fromKey
  obtain ⟨hb2, ⟨vt, hvt⟩, hkeep2, hback2, hint2⟩ := ensure_spec hb1 toKey
  have hvf : ((fromKey : ℚ), vf0) ∈
      (RangeList.ensurePointExists (RangeList.ensurePointExists t fromKey) toKey).inOrderTraversal :=
    hkeep2 _ hvf0 hft.ne
  obtain ⟨hio3, hb3⟩ := removePoints_spec hb2 fromKey toKey
  have hb4 := AVLTree.bst_update hb3 fromKey amount
  have hb5 := AVLTree.bst_update hb4 toKey (RangeList.getIntensityAt t toKey)
  have hset : RangeList.set t fromKey toKey amount =
      RangeList.cleanupRedundantPoints
        (((RangeList.removePointsInRange
        (RangeList.ensurePointExists (RangeList.ensurePointExists t fromKey) toKey)
        fromKey toKey).update fromKey amount).update toKey
      (RangeList.getIntensityAt t toKey)) := by
    rw [RangeList.set, if_neg (show ¬ fromKey ≥ toKey from not_le.mpr hft)]
  have hps5 : (((RangeList.removePointsInRange
        (RangeList.ensurePointExists (RangeList.ensurePointExists t fromKey) toKey)
        fromKey toKey).update fromKey amount).update toKey
      (RangeList.getIntensityAt t toKey)).inOrderTraversal =
      mapValueAt toKey (RangeList.getIntensityAt t toKey)
        (mapValueAt fromKey amount
        ((RangeList.ensurePointExists (RangeList.ensurePointExists t fromKey) toKey).inOrderTraversal.filter
          fun q => ¬ (fromKey < q.1 ∧ q.1 < toKey))) := by
    rw [AVLTree.inorder_update hb4, AVLTree.inorder_update hb3, hio3]
  have hvf3 : ((fromKey : ℚ), vf0) ∈
      (RangeList.ensurePointExists (RangeList.ensurePointExists t fromKey) toKey).inOrderTraversal.filter
        (fun q => ¬ (fromKey < q.1 ∧ q.1 < toKey)) :=
    List.mem_filter.mpr ⟨hvf, by simp⟩
  have hvt3 : ((toKey : ℚ), vt) ∈
      (RangeList.ensurePointExists (RangeList.ensurePointExists t fromKey) toKey).inOrderTraversal.filter
        (fun q => ¬ (fromKey < q.1 ∧ q.1 < toKey)) :=
    List.mem_filter.mpr ⟨hvt, by simp⟩
  have hlen : 1 < (((RangeList.removePointsInRange
        (RangeList.ensurePointExists (RangeList.ensurePointExists t fromKey) toKey)
        fromKey toKey).update fromKey amount).update toKey
      (RangeList.getIntensityAt t toKey)).inOrderTraversal.length := by
    rw [hps5]
    exact one_lt_length_of_two_mem
      (mem_mapValueAt_of_ne (mem_mapValueAt_self hvf3) hft.ne)
      (mem_mapValueAt_self (mem_mapValueAt_of_ne hvt3 hft.ne'))
      hft.ne
  rw [hset]
  exact canonical_cleanup hb5 hlen

/-- After an effective `add`, the exported list is in canonical form. -/
theorem add_canonical {t : AVLTree} (hb : AVLTree.BST t)
    {fromKey toKey : ℚ} (amount : ℚ) (hft : fromKey < toKey)
    (hz : amount ≠ 0) :
    CanonicalForm (RangeList.add t fromKey toKey amount).inOrderTraversal := by
  obtain ⟨hb1, ⟨vf0, hvf0⟩, hkeep1, hback1, hint1⟩ := ensure_spec hb fromKey
  obtain ⟨hb2, ⟨vt, hvt⟩, hkeep2, hback2, hint2⟩ := ensure_spec hb1 toKey
  have hvf : ((fromKey : ℚ), vf0) ∈
      (RangeList.ensurePointExists (RangeList.ensurePointExists t fromKey) toKey).inOrderTraversal :=
    hkeep2 _ hvf0 hft.ne
  obtain ⟨hioA, hbA⟩ := adjust_spec hb2 amount hft
  have hadd : RangeList.add t fromKey toKey amount =
      RangeList.cleanupRedundantPoints
        (RangeList.adjustIntensities
        (RangeList.ensurePointExists (RangeList.ensurePointExists t fromKey) toKey)
        fromKey toKey amount) := by
    rw [RangeList.add,
      if_neg (not_or.mpr ⟨show ¬ fromKey ≥ toKey from not_le.mpr hft, hz⟩)]
  have hlen : 1 < (RangeList.adjustIntensities
        (RangeList.ensurePointExists (RangeList.ensurePointExists t fromKey) toKey)
        fromKey toKey amount).inOrderTraversal.length := by
    rw [hioA, adjustMap, List.length_map]
    exact one_lt_length_of_two_mem hvf hvt hft.ne
  rw [hadd]
  exact canonical_cleanup hbA hlen

/-! ## Reachability invariant for the RangeList operations -/
theorem rangeOps_preserve :
    ∀ (ops : List RangeOp) {t : AVLTree}, AVLTree.BST t →
      CanonicalForm t.inOrderTraversal →
      AVLTree.BST (ops.foldl applyRangeOp t) ∧
      CanonicalForm (ops.foldl applyRangeOp t).inOrderTraversal := by
  intro ops
  induction ops with
  | nil =>
      intro t hb hc
      exact ⟨hb, hc⟩
  | cons op rest ih =>
      intro t hb hc
      rw [List.foldl_cons]
      apply ih
      case _ =>
        cases op with
        | add fromKey toKey amount =>
            by_cases hft : fromKey < toKey
            · exact (add_spec hb amount hft).1
            · rw [applyRangeOp, RangeList.add,
                if_pos (Or.inl (not_lt.mp hft))]
              exact hb
        | set fromKey toKey amount =>
            by_cases hft : fromKey < toKey
            · exact (set_spec hb amount hft).1
            · rw [applyRangeOp, RangeList.set, if_pos (not_lt.mp hft)]
              exact hb
      case _ =>
        cases op with
        | add fromKey toKey amount =>
            by_cases hft : fromKey < toKey
            · by_cases hz : amount = 0
              · rw [applyRangeOp, RangeList.add, if_pos (Or.inr hz)]
                exact hc
              · exact add_canonical hb amount hft hz
            · rw [applyRangeOp, RangeList.add,
                if_pos (Or.inl (not_lt.mp hft))]
              exact hc
        | set fromKey toKey amount =>
            by_cases hft : fromKey < toKey
            · exact set_canonical hb amount hft
            · rw [applyRangeOp, RangeList.set, if_pos (not_lt.mp hft)]
              exact hc

theorem canonical_nil : CanonicalForm (AVLTree.nil.inOrderTraversal) :=
  ⟨List.chain'_nil, fun p hp => absurd hp (by simp [AVLTree.inOrderTraversal])⟩

theorem runRangeOps_invariant (ops : List RangeOp) :
    AVLTree.BST (runRangeOps ops) ∧
    CanonicalForm (runRangeOps ops).inOrderTraversal :=
  rangeOps_preserve ops AVLTree.BST.nil canonical_nil

namespace AVLTree

theorem balance_id {k v : ℚ} {h : Nat} {l r : AVLTree}
    (h1 : getBalanceFactor (.node k v h l r) ≤ 1)
    (h2 : -1 ≤ getBalanceFactor (.node k v h l r)) :
    balance (.node k v h l r) = .node k v h l r := by
  rw [balance, if_neg (not_lt.mpr h1), if_neg (not_lt.mpr h2)]

theorem balance_left_heavy {k v : ℚ} {h : Nat} {l r : AVLTree}
    (h1 : getBalanceFactor (.node k v h l r) > 1) :
    balance (.node k v h l r) =
      if getBalanceFactor l < 0 then
        rotateRight (.node k v h (rotateLeft l) r)
      else rotateRight (.node k v h l r) := by
  rw [balance, if_pos h1]

theorem balance_right_heavy {k v : ℚ} {h : Nat} {l r : AVLTree}
    (h1 : getBalanceFactor (.node k v h l r) < -1) :
    balance (.node k v h l r) =
      if getBalanceFactor r > 0 then
        rotateLeft (.node k v h l (rotateRight r))
      else rotateLeft (.node k v h l r) := by
  rw [balance, if_neg (show ¬ getBalanceFactor (.node k v h l r) > 1 by omega),
    if_pos h1]

theorem rebalanceAfter_node (k v : ℚ) (h : Nat) (l r : AVLTree) :
    rebalanceAfter (.node k v h l r) =
      balance (.node k v (1 + max (getHeight l) (getHeight r)) l r) := rfl

/-- A node whose cached height is already correct and whose balance factor
is within bounds is left untouched by the rebalancing tail. -/
theorem rebalanceAfter_of_ok {t : AVLTree} (ho : heightsOk t)
    (hb : BalancedAll t) : rebalanceAfter t = t := by
  cases t with
  | nil => rfl
  | node k v h l r =>
      obtain ⟨hh, _, _⟩ := ho
      obtain ⟨hb1, hb2, _, _⟩ := hb
      rw [rebalanceAfter_node, ← hh,
        balance_id (show getBalanceFactor (.node k v h l r) ≤ 1 from hb2)
          (show -1 ≤ getBalanceFactor (.node k v h l r) from hb1)]

/-- The rebalancing tail restores the height and balance invariants whenever
the two children are valid AVL subtrees whose heights differ by at most two,
and the resulting height is `max` or `1 + max` of the children's heights. -/
theorem getHeight_nil : getHeight .nil = 0 := rfl

theorem getHeight_node (k v : ℚ) (h : Nat) (l r : AVLTree) :
    getHeight (.node k v h l r) = h := rfl

theorem rebalance_avl (k v : ℚ) (h0 : Nat) {l r : AVLTree}
    (hol : heightsOk l) (hor : heightsOk r)
    (hbl : BalancedAll l) (hbr : BalancedAll r)
    (hd1 : (getHeight l : Int) - getHeight r ≤ 2)
    (hd2 : (getHeight r : Int) - getHeight l ≤ 2) :
    heightsOk (rebalanceAfter (.node k v h0 l r)) ∧
    BalancedAll (rebalanceAfter (.node k v h0 l r)) ∧
    max (getHeight l) (getHeight r) ≤
      getHeight (rebalanceAfter (.node k v h0 l r)) ∧
    getHeight (rebalanceAfter (.node k v h0 l r)) ≤
      1 + max (getHeight l) (getHeight r) ∧
    ((getHeight l : Int) - getHeight r ≤ 1 →
      (getHeight r : Int) - getHeight l ≤ 1 →
      getHeight (rebalanceAfter (.node k v h0 l r)) =
        1 + max (getHeight l) (getHeight r)) := by
  rw [rebalanceAfter_node]
  by_cases hgt : (1 : Int) < getBalanceFactor
      (.node k v (1 + max (getHeight l) (getHeight r)) l r)
  · rw [balance_left_heavy hgt]
    have hgt' : (1 : Int) < (getHeight l : Int) - getHeight r := hgt
    cases l with
    | nil =>
        exfalso
        simp only [getHeight_node, getHeight_nil] at hgt'
        omega
    | node lk lv lh ll lr =>
        simp only [getHeight_node, getHeight_nil] at hgt' hd1 hd2
        obtain ⟨hlh, holl, holr⟩ := hol
        obtain ⟨hbl1, hbl2, hbll, hblr⟩ := hbl
        by_cases hlneg : getBalanceFactor (.node lk lv lh ll lr) < 0
        · rw [if_pos hlneg]
          have hlneg' : (getHeight ll : Int) - getHeight lr < 0 := hlneg
          cases lr with
          | nil =>
              exfalso
              simp only [getHeight_node, getHeight_nil] at hlneg'
              omega
          | node ak av ah al ar =>
              simp only [getHeight_node, getHeight_nil] at hlneg' hlh hbl1 hbl2
              obtain ⟨hah, hoal, hoar⟩ := holr
              obtain ⟨hba1, hba2, hbal, hbar⟩ := hblr
              simp only [rotateLeft, rotateRight, heightsOk, BalancedAll,
                getHeight_node, getHeight_nil]
              repeat' apply And.intro
              all_goals first | assumption | trivial | (intros; omega)
        · rw [if_neg hlneg]
          have hlpos : ¬ ((getHeight ll : Int) - getHeight lr < 0) := hlneg
          simp only [rotateRight, heightsOk, BalancedAll, getHeight_node, getHeight_nil]
          repeat' apply And.intro
          all_goals first | assumption | trivial | (intros; omega)
  · by_cases hlt : getBalanceFactor
        (.node k v (1 + max (getHeight l) (getHeight r)) l r) < -1
    · rw [balance_right_heavy hlt]
      have hlt' : (getHeight l : Int) - getHeight r < -1 := hlt
      cases r with
      | nil =>
          exfalso
          simp only [getHeight_node, getHeight_nil] at hlt'
          omega
      | node rk rv rh rl rr =>
          simp only [getHeight_node, getHeight_nil] at hlt' hd1 hd2
          obtain ⟨hrh, horl, horr⟩ := hor
          obtain ⟨hbr1, hbr2, hbrl, hbrr⟩ := hbr
          by_cases hrpos : (0 : Int) < getBalanceFactor (.node rk rv rh rl rr)
          · rw [if_pos hrpos]
            have hrpos' : (0 : Int) < (getHeight rl : Int) - getHeight rr :=
              hrpos
            cases rl with
            | nil =>
                exfalso
                simp only [getHeight_node, getHeight_nil] at hrpos'
                omega
            | node ak av ah al ar =>
                simp only [getHeight_node, getHeight_nil] at hrpos' hrh hbr1 hbr2
                obtain ⟨hah, hoal, hoar⟩ := horl
                obtain ⟨hba1, hba2, hbal, hbar⟩ := hbrl
                simp only [rotateRight, rotateLeft, heightsOk, BalancedAll,
                  getHeight_node, getHeight_nil]
                repeat' apply And.intro
                all_goals first | assumption | trivial | (intros; omega)
          · rw [if_neg hrpos]
            have hrneg : ¬ ((0 : Int) < (getHeight rl : Int) - getHeight rr) :=
              hrpos
            simp only [rotateLeft, heightsOk, BalancedAll, getHeight_node, getHeight_nil]
            repeat' apply And.intro
            all_goals first | assumption | trivial | (intros; omega)
    · rw [balance_id (not_lt.mp hgt) (by omega)]
      have hb1 : ¬ ((1 : Int) < (getHeight l : Int) - getHeight r) := hgt
      have hb2 : ¬ ((getHeight l : Int) - getHeight r < -1) := hlt
      exact ⟨⟨rfl, hol, hor⟩, ⟨by omega, by omega, hbl, hbr⟩,
        by rw [getHeight_node]; omega, le_refl _,
        fun _ _ => by rw [getHeight_node]⟩

/-- Arithmetic core of the insert/remove height bookkeeping: if one child's
height moved by at most one and the node was rebalanced, the node's height
also moves by at most one. -/
theorem height_bounds_step {ha hb ha' hres : Nat}
    (h1 : -1 ≤ (ha : Int) - hb) (h2 : (ha : Int) - hb ≤ 1)
    (hlo : ha ≤ ha' + 1) (hhi : ha' ≤ ha + 1)
    (R3 : max ha' hb ≤ hres) (R4 : hres ≤ 1 + max ha' hb)
    (R5 : (ha' : Int) - hb ≤ 1 → (hb : Int) - ha' ≤ 1 →
      hres = 1 + max ha' hb) :
    1 + max ha hb ≤ hres + 1 ∧ hres ≤ (1 + max ha hb) + 1 := by
  by_cases hc1 : (ha' : Int) - hb ≤ 1
  · by_cases hc2 : (hb : Int) - ha' ≤ 1
    · have := R5 hc1 hc2
      omega
    · omega
  · omega

/-- `_insertNode` preserves the AVL invariants and changes the height by at
most one. -/
theorem insert_avl : ∀ {t : AVLTree}, heightsOk t → BalancedAll t →
    ∀ (k v : ℚ),
    heightsOk (insertNode t k v) ∧ BalancedAll (insertNode t k v) ∧
    getHeight t ≤ getHeight (insertNode t k v) + 1 ∧
    getHeight (insertNode t k v) ≤ getHeight t + 1 := by
  intro t
  induction t with
  | nil =>
      intro _ _ k v
      exact ⟨⟨rfl, trivial, trivial⟩, ⟨by decide, by decide, trivial, trivial⟩,
        Nat.zero_le _, le_refl _⟩
  | node nk nv nh l r ihl ihr =>
      intro ho hb k v
      obtain ⟨hnh, hol, hor⟩ := ho
      obtain ⟨hb1, hb2, hbl, hbr⟩ := hb
      rw [insertNode]
      by_cases h1 : k < nk
      · rw [if_pos h1]
        obtain ⟨ho', hb', hlo, hhi⟩ := ihl hol hbl k v
        obtain ⟨R1, R2, R3, R4, R5⟩ :=
          rebalance_avl nk nv nh ho' hor hb' hbr (by omega) (by omega)
        obtain ⟨F1, F2⟩ := height_bounds_step hb1 hb2 hlo hhi R3 R4 R5
        exact ⟨R1, R2, by rw [getHeight_node]; omega,
          by rw [getHeight_node]; omega⟩
      · rw [if_neg h1]
        by_cases h2 : k > nk
        · rw [if_pos h2]
          obtain ⟨ho', hb', hlo, hhi⟩ := ihr hor hbr k v
          obtain ⟨R1, R2, R3, R4, R5⟩ :=
            rebalance_avl nk nv nh hol ho' hbl hb' (by omega) (by omega)
          obtain ⟨F1, F2⟩ := @height_bounds_step (getHeight r) (getHeight l)
            (getHeight (insertNode r k v))
            (getHeight (rebalanceAfter (.node nk nv nh l (insertNode r k v))))
            (by omega) (by omega) hlo hhi (by omega) (by omega)
            (fun p q => by have := R5 q p; omega)
          exact ⟨R1, R2, by rw [getHeight_node]; omega,
            by rw [getHeight_node]; omega⟩
        · rw [if_neg h2]
          exact ⟨⟨hnh, hol, hor⟩, ⟨hb1, hb2, hbl, hbr⟩,
            by rw [getHeight_node, getHeight_node]; omega,
            by rw [getHeight_node, getHeight_node]; omega⟩

/-- `_removeNode` preserves the AVL invariants and changes the height by at
most one. -/
theorem remove_avl : ∀ {t : AVLTree}, heightsOk t → BalancedAll t →
    ∀ (k : ℚ),
    heightsOk (removeNode t k) ∧ BalancedAll (removeNode t k) ∧
    getHeight t ≤ getHeight (removeNode t k) + 1 ∧
    getHeight (removeNode t k) ≤ getHeight t + 1 := by
  intro t
  induction t with
  | nil =>
      intro _ _ k
      exact ⟨trivial, trivial, Nat.zero_le _, Nat.zero_le _⟩
  | node nk nv nh l r ihl ihr =>
      intro ho hb k
      obtain ⟨hnh, hol, hor⟩ := ho
      obtain ⟨hb1, hb2, hbl, hbr⟩ := hb
      by_cases h1 : k < nk
      · rw [removeNode_node, if_pos h1]
        obtain ⟨ho', hb', hlo, hhi⟩ := ihl hol hbl k
        obtain ⟨R1, R2, R3, R4, R5⟩ :=
          rebalance_avl nk nv nh ho' hor hb' hbr (by omega) (by omega)
        obtain ⟨F1, F2⟩ := height_bounds_step hb1 hb2 hlo hhi R3 R4 R5
        exact ⟨R1, R2, by rw [getHeight_node]; omega,
          by rw [getHeight_node]; omega⟩
      · by_cases h2 : k > nk
        · rw [removeNode_node, if_neg h1, if_pos h2]
          obtain ⟨ho', hb', hlo, hhi⟩ := ihr hor hbr k
          obtain ⟨R1, R2, R3, R4, R5⟩ :=
            rebalance_avl nk nv nh hol ho' hbl hb' (by omega) (by omega)
          obtain ⟨F1, F2⟩ := @height_bounds_step (getHeight r) (getHeight l)
            (getHeight (removeNode r k))
            (getHeight (rebalanceAfter (.node nk nv nh l (removeNode r k))))
            (by omega) (by omega) hlo hhi (by omega) (by omega)
            (fun p q => by have := R5 q p; omega)
          exact ⟨R1, R2, by rw [getHeight_node]; omega,
            by rw [getHeight_node]; omega⟩
        · cases l with
          | nil =>
              rw [removeNode_left_nil h1 h2, rebalanceAfter_of_ok hor hbr]
              simp only [getHeight_nil] at hnh
              refine ⟨hor, hbr, ?_, ?_⟩ <;>
                simp only [getHeight_node, getHeight_nil] <;> omega
          | node lk lv lh ll lr =>
              cases r with
              | nil =>
                  rw [removeNode_right_nil h1 h2,
                    rebalanceAfter_of_ok hol hbl]
                  simp only [getHeight_nil, getHeight_node] at hnh
                  refine ⟨hol, hbl, ?_, ?_⟩ <;>
                    simp only [getHeight_node, getHeight_nil] <;> omega
              | node rk rv rh rl rr =>
                  rw [removeNode_two h1 h2]
                  obtain ⟨ho', hb', hlo, hhi⟩ :=
                    ihr hor hbr (findMin (.node rk rv rh rl rr)).1
                  obtain ⟨R1, R2, R3, R4, R5⟩ :=
                    rebalance_avl (findMin (.node rk rv rh rl rr)).1
                      (findMin (.node rk rv rh rl rr)).2 nh hol ho'
                      hbl hb' (by omega) (by omega)
                  obtain ⟨F1, F2⟩ := @height_bounds_step
                    (getHeight (.node rk rv rh rl rr))
                    (getHeight (.node lk lv lh ll lr))
                    (getHeight (removeNode (.node rk rv rh rl rr)
                      (findMin (.node rk rv rh rl rr)).1))
                    (getHeight (rebalanceAfter
                      (.node (findMin (.node rk rv rh rl rr)).1
                        (findMin (.node rk rv rh rl rr)).2 nh
                        (.node lk lv lh ll lr)
                        (removeNode (.node rk rv rh rl rr)
                          (findMin (.node rk rv rh rl rr)).1))))
                    (by omega) (by omega) hlo hhi (by omega) (by omega)
                    (fun p q => by have := R5 q p; omega)
                  exact ⟨R1, R2, by rw [getHeight_node]; omega,
                    by rw [getHeight_node]; omega⟩

end AVLTree

/-- Every `insert`/`remove` step preserves the AVL height, balance, and BST
invariants. -/
theorem treeOps_preserve :
    ∀ (ops : List TreeOp) {t : AVLTree},
      AVLTree.heightsOk t → AVLTree.BalancedAll t → AVLTree.BST t →
      AVLTree.heightsOk (ops.foldl applyTreeOp t) ∧
      AVLTree.BalancedAll (ops.foldl applyTreeOp t) ∧
      AVLTree.BST (ops.foldl applyTreeOp t) := by
  intro ops
  induction ops with
  | nil =>
      intro t h1 h2 h3
      exact ⟨h1, h2, h3⟩
  | cons op rest ih =>
      intro t h1 h2 h3
      rw [List.foldl_cons]
      cases op with
      | ins k v =>
          exact ih (AVLTree.insert_avl h1 h2 k v).1
            (AVLTree.insert_avl h1 h2 k v).2.1 (AVLTree.bst_insertNode h3 k v)
      | del k =>
          exact ih (AVLTree.remove_avl h1 h2 k).1
            (AVLTree.remove_avl h1 h2 k).2.1 (AVLTree.bst_removeNode h3 k)

/-- Invariants of every tree reachable by `insert`/`remove` from empty. -/
theorem runTreeOps_invariant (ops : List TreeOp) :
    AVLTree.heightsOk (runTreeOps ops) ∧
    AVLTree.BalancedAll (runTreeOps ops) ∧
    AVLTree.BST (runTreeOps ops) :=
  treeOps_preserve ops True.intro True.intro AVLTree.BST.nil

namespace AVLTree

theorem keysList_node (nk nv : ℚ) (nh : Nat) (l r : AVLTree) :
    keysList (.node nk nv nh l r) = keysList l ++ nk :: keysList r := by
  simp [keysList, inOrderTraversal]

theorem getHeight_update (t : AVLTree) (k v : ℚ) :
    getHeight (update t k v) = getHeight t := by
  cases t with
  | nil => rfl
  | node nk nv nh l r =>
      rw [update]
      split_ifs <;> rfl

theorem heightsOk_update : ∀ {t : AVLTree} (k v : ℚ),
    heightsOk t → heightsOk (update t k v) := by
  intro t
  induction t with
  | nil => intro _ _ h; exact h
  | node nk nv nh l r ihl ihr =>
      intro k v h
      obtain ⟨hh, hl, hr⟩ := h
      rw [update]
      split_ifs with h1 h2
      · exact ⟨hh, hl, hr⟩
      · exact ⟨by rw [getHeight_update]; exact hh, ihl k v hl, hr⟩
      · exact ⟨by rw [getHeight_update]; exact hh, hl, ihr k v hr⟩

theorem balancedAll_update : ∀ {t : AVLTree} (k v : ℚ),
    BalancedAll t → BalancedAll (update t k v) := by
  intro t
  induction t with
  | nil => intro _ _ h; exact h
  | node nk nv nh l r ihl ihr =>
      intro k v h
      obtain ⟨h1, h2, hl, hr⟩ := h
      rw [update]
      split_ifs with hc1 hc2
      · exact ⟨h1, h2, hl, hr⟩
      · exact ⟨by rw [getHeight_update]; exact h1,
          by rw [getHeight_update]; exact h2, ihl k v hl, hr⟩
      · exact ⟨by rw [getHeight_update]; exact h1,
          by rw [getHeight_update]; exact h2, hl, ihr k v hr⟩

theorem shapeHeights_update : ∀ (t : AVLTree) (k v : ℚ),
    shapeHeights (update t k v) = shapeHeights t := by
  intro t
  induction t with
  | nil => intro _ _; rfl
  | node nk nv nh l r ihl ihr =>
      intro k v
      rw [update]
      split_ifs with h1 h2
      · rfl
      · rw [shapeHeights, shapeHeights, ihl]
      · rw [shapeHeights, shapeHeights, ihr]

/-- Inserting an already stored key on a valid AVL tree coincides with the
in-place value update: no height changes and no rebalancing happen. -/
theorem insert_existing_eq_update :
    ∀ {t : AVLTree}, heightsOk t → BalancedAll t → BST t →
      ∀ {k : ℚ} (v : ℚ), k ∈ keysList t →
      insertNode t k v = update t k v := by
  intro t
  induction t with
  | nil =>
      intro _ _ _ k v hk
      exact absurd hk (by simp [keysList, inOrderTraversal])
  | node nk nv nh l r ihl ihr =>
      intro ho hb hbst k v hk
      obtain ⟨hnh, hol, hor⟩ := ho
      obtain ⟨hb1, hb2, hbl, hbr⟩ := hb
      cases hbst with
      | node hfl hfr hsl hsr =>
          rw [keysList_node] at hk
          by_cases h1 : k < nk
          · have hkl : k ∈ keysList l := by
              rcases List.mem_append.mp hk with h | h
              · exact h
              · rcases List.mem_cons.mp h with rfl | h'
                · exact absurd h1 (lt_irrefl k)
                · obtain ⟨q, hq, hqk⟩ := List.mem_map.mp h'
                  exact absurd (hqk ▸ forTree_iff.mp hfr q hq) (lt_asymm h1)
            rw [insertNode, if_pos h1, ihl hol hbl hsl v hkl,
              update, if_neg (ne_of_lt h1), if_pos h1]
            exact rebalanceAfter_of_ok
              ⟨by rw [getHeight_update]; exact hnh,
                heightsOk_update k v hol, hor⟩
              ⟨by rw [getHeight_update]; exact hb1,
                by rw [getHeight_update]; exact hb2,
                balancedAll_update k v hbl, hbr⟩
          · by_cases h2 : k > nk
            · have hkr : k ∈ keysList r := by
                rcases List.mem_append.mp hk with h | h
                · obtain ⟨q, hq, hqk⟩ := List.mem_map.mp h
                  exact absurd (hqk ▸ forTree_iff.mp hfl q hq)
                    (lt_asymm h2)
                · rcases List.mem_cons.mp h with rfl | h'
                  · exact absurd h2 (lt_irrefl k)
                  · exact h'
              rw [insertNode, if_neg h1, if_pos h2, ihr hor hbr hsr v hkr,
                update, if_neg (ne_of_gt h2), if_neg h1]
              exact rebalanceAfter_of_ok
                ⟨by rw [getHeight_update]; exact hnh,
                  hol, heightsOk_update k v hor⟩
                ⟨by rw [getHeight_update]; exact hb1,
                  by rw [getHeight_update]; exact hb2,
                  hbl, balancedAll_update k v hbr⟩
            · have hkn : k = nk := le_antisymm (not_lt.mp h2) (not_lt.mp h1)
              rw [insertNode, if_neg h1, if_neg h2, update, if_pos hkn]

end AVLTree

/-! ## The claims -/
/-- Claim C1: on every reachable accumulator state, `add(from, to, amount)`
leaves `toArray()` unchanged when `from ≥ to` or `amount = 0`, and otherwise
adds `amount` to the effective intensity exactly at the positions in
`[from, to)`, leaving it unchanged elsewhere. -/
theorem claim_C1 (ops : List RangeOp) (fromKey toKey amount : ℚ) :
    (fromKey ≥ toKey ∨ amount = 0 →
      RangeList.toArray (RangeList.add (runRangeOps ops) fromKey toKey amount) =
        RangeList.toArray (runRangeOps ops)) ∧
    (fromKey < toKey →
      ∀ x, intensityAt (RangeList.toArray
          (RangeList.add (runRangeOps ops) fromKey toKey amount)) x =
        if fromKey ≤ x ∧ x < toKey
        then intensityAt (RangeList.toArray (runRangeOps ops)) x + amount
        else intensityAt (RangeList.toArray (runRangeOps ops)) x) := by
  obtain ⟨hb, _⟩ := runRangeOps_invariant ops
  constructor
  · intro h
    rw [RangeList.toArray, RangeList.toArray, RangeList.add, if_pos h]
  · intro hft x
    obtain ⟨hb2, hint⟩ := add_spec hb amount hft
    rw [RangeList.toArray, RangeList.toArray,
      intensityAt_eq_aux (AVLTree.sorted_inorder hb2),
      intensityAt_eq_aux (AVLTree.sorted_inorder hb), hint x]

theorem claim_C1_witness :
    RangeList.toArray (RangeList.add (runRangeOps []) 1 0 5) =
      RangeList.toArray (runRangeOps []) ∧
    intensityAt (RangeList.toArray (RangeList.add (runRangeOps []) 0 1 5)) 0 =
      if (0 : ℚ) ≤ 0 ∧ (0 : ℚ) < 1
      then intensityAt (RangeList.toArray (runRangeOps [])) 0 + 5
      else intensityAt (RangeList.toArray (runRangeOps [])) 0 :=
  ⟨(claim_C1 [] 1 0 5).1 (Or.inl (by norm_num)),
   (claim_C1 [] 0 1 5).2 (by norm_num) 0⟩

/-- Claim C2: on every reachable accumulator state, `set(from, to, amount)`
is a no-op when `from ≥ to`; otherwise afterwards the effective intensity is
`amount` on `[from, to)` and unchanged at every position `≥ to`. -/
theorem claim_C2 (ops : List RangeOp) (fromKey toKey amount : ℚ) :
    (fromKey ≥ toKey →
      RangeList.toArray (RangeList.set (runRangeOps ops) fromKey toKey amount) =
        RangeList.toArray (runRangeOps ops)) ∧
    (fromKey < toKey → ∀ x,
      (fromKey ≤ x ∧ x < toKey →
        intensityAt (RangeList.toArray
          (RangeList.set (runRangeOps ops) fromKey toKey amount)) x = amount) ∧
      (toKey ≤ x →
        intensityAt (RangeList.toArray
          (RangeList.set (runRangeOps ops) fromKey toKey amount)) x =
          intensityAt (RangeList.toArray (runRangeOps ops)) x)) := by
  obtain ⟨hb, _⟩ := runRangeOps_invariant ops
  constructor
  · intro h
    rw [RangeList.toArray, RangeList.toArray, RangeList.set, if_pos h]
  · intro hft x
    obtain ⟨hb2, hint⟩ := set_spec hb amount hft
    constructor
    · intro hx
      rw [RangeList.toArray,
        intensityAt_eq_aux (AVLTree.sorted_inorder hb2), hint x, if_pos hx]
    · intro hx
      rw [RangeList.toArray, RangeList.toArray,
        intensityAt_eq_aux (AVLTree.sorted_inorder hb2),
        intensityAt_eq_aux (AVLTree.sorted_inorder hb), hint x,
        if_neg (fun hc => absurd hx (not_le.mpr hc.2))]

theorem claim_C2_witness :
    RangeList.toArray (RangeList.set (runRangeOps []) 1 0 5) =
      RangeList.toArray (runRangeOps []) ∧
    intensityAt (RangeList.toArray (RangeList.set (runRangeOps []) 0 1 5)) 0 =
      5 ∧
    intensityAt (RangeList.toArray (RangeList.set (runRangeOps []) 0 1 5)) 2 =
      intensityAt (RangeList.toArray (runRangeOps [])) 2 :=
  ⟨(claim_C2 [] 1 0 5).1 (by norm_num),
   ((claim_C2 [] 0 1 5).2 (by norm_num) 0).1 (by norm_num),
   ((claim_C2 [] 0 1 5).2 (by norm_num) 2).2 (by norm_num)⟩

/-- Claim C3: after every `add` or `set` call on a reachable accumulator, the
exported pairs have pairwise distinct adjacent intensities and a nonzero
first intensity. -/
theorem claim_C3 (ops : List RangeOp) (op : RangeOp) :
    CanonicalForm (RangeList.toArray (applyRangeOp (runRangeOps ops) op)) := by
  obtain ⟨hb, hc⟩ := runRangeOps_invariant ops
  have h := (rangeOps_preserve [op] hb hc).2
  rw [List.foldl_cons, List.foldl_nil] at h
  exact h

/-- Claim C4: after every sequence of `insert`/`remove` calls on an initially
empty tree, every cached height is one plus the larger child height, and
every balance factor is in `{-1, 0, 1}`. -/
theorem claim_C4 (ops : List TreeOp) :
    AVLTree.heightsOk (runTreeOps ops) ∧
    AVLTree.BalancedAll (runTreeOps ops) :=
  ⟨(runTreeOps_invariant ops).1, (runTreeOps_invariant ops).2.1⟩

/-- Claim C5: every tree reachable by `insert`/`remove` calls lists its pairs
with strictly increasing keys in `inOrderTraversal`, and both rotations
preserve the in-order sequence. -/
theorem claim_C5 (ops : List TreeOp) :
    AVLTree.KeySorted (runTreeOps ops).inOrderTraversal ∧
    ∀ t : AVLTree,
      (AVLTree.rotateRight t).inOrderTraversal = t.inOrderTraversal ∧
      (AVLTree.rotateLeft t).inOrderTraversal = t.inOrderTraversal :=
  ⟨AVLTree.sorted_inorder (runTreeOps_invariant ops).2.2,
   fun t => ⟨AVLTree.inorder_rotateRight t, AVLTree.inorder_rotateLeft t⟩⟩

/-- Claim C6, corrected: `getKeysInRange(from, to)` returns exactly the
stored keys in `[from, to]` — as a permutation of the key-sorted filtered
list, but not in increasing order (the node's key is pushed before the left
subtree is visited; see the counterexample). -/
theorem claim_C6 {t : AVLTree} (hb : AVLTree.BST t) (fromKey toKey : ℚ) :
    (t.getKeysInRange fromKey toKey).Perm
      ((AVLTree.keysList t).filter fun k => fromKey ≤ k ∧ k ≤ toKey) :=
  AVLTree.getKeysInRange_perm hb fromKey toKey

theorem claim_C6_witness :
    ((runTreeOps [TreeOp.ins 10 10, TreeOp.ins 20 20,
        TreeOp.ins 30 30]).getKeysInRange 0 100).Perm
      ((AVLTree.keysList (runTreeOps [TreeOp.ins 10 10, TreeOp.ins 20 20,
        TreeOp.ins 30 30])).filter fun k => 0 ≤ k ∧ k ≤ 100) :=
  claim_C6 ((runTreeOps_invariant _).2.2) 0 100

theorem claim_C6_counterexample :
    (runTreeOps [TreeOp.ins 10 10, TreeOp.ins 20 20,
        TreeOp.ins 30 30]).getKeysInRange 0 100 = [20, 10, 30] ∧
    ¬ List.Pairwise (fun a b => a < b)
      ((runTreeOps [TreeOp.ins 10 10, TreeOp.ins 20 20,
        TreeOp.ins 30 30]).getKeysInRange 0 100) := by
  with_unfolding_all decide

/-- Claim C7, corrected: `findNearest(k)` returns the exact match when `k`
is stored, the sole candidate when only one of predecessor/successor exists,
`none` on an empty tree, and otherwise the strictly closer candidate — but
on an exact distance tie it returns the successor (the greater key), not the
lesser one claimed by the spec (see the counterexample). -/
theorem claim_C7 {t : AVLTree} (hb : AVLTree.BST t) (k : ℚ) :
    (∀ v, (k, v) ∈ t.inOrderTraversal → t.findNearest k = some (k, v)) ∧
    ((∀ q ∈ t.inOrderTraversal, q.1 ≠ k) →
      (t.inOrderTraversal = [] → t.findNearest k = none) ∧
      (∀ p, t.findLessThan k = some p → t.findGreaterThan k = none →
        t.findNearest k = some p) ∧
      (∀ s, t.findGreaterThan k = some s → t.findLessThan k = none →
        t.findNearest k = some s) ∧
      (∀ p s, t.findLessThan k = some p → t.findGreaterThan k = some s →
        t.findNearest k =
          if k - p.1 < s.1 - k then some p else some s) ∧
      (∀ p s, t.findLessThan k = some p → t.findGreaterThan k = some s →
        k - p.1 = s.1 - k → t.findNearest k = some s)) := by
  constructor
  · intro v hm
    rw [AVLTree.findNearest, (AVLTree.find_eq_some hb).mpr ⟨rfl, hm⟩]
  · intro habs
    have hf : t.find k = none := (AVLTree.find_eq_none hb).mpr habs
    refine ⟨?_, ?_, ?_, ?_, ?_⟩
    · intro hemp
      rw [AVLTree.findNearest, hf, AVLTree.findLessThan_eq hb,
        AVLTree.findGreaterThan_eq hb, hemp]
      rfl
    · intro p hp hg
      rw [AVLTree.findNearest, hf, hp, hg]
    · intro s hs hp
      rw [AVLTree.findNearest, hf, hp, hs]
    · intro p s hp hs
      rw [AVLTree.findNearest, hf, hp, hs]
    · intro p s hp hs htie
      rw [AVLTree.findNearest, hf, hp, hs]
      show (if k - p.1 < s.1 - k then some p else some s) = some s
      rw [if_neg (show ¬ k - p.1 < s.1 - k by rw [htie]; exact lt_irrefl _)]

theorem claim_C7_witness :
    (runTreeOps [TreeOp.ins 0 5, TreeOp.ins 2 7]).findNearest 0 =
      some (0, 5) ∧
    (runTreeOps [TreeOp.ins 0 5, TreeOp.ins 2 7]).findNearest 1 =
      some (2, 7) := by
  constructor
  · exact (claim_C7 ((runTreeOps_invariant _).2.2) 0).1 5
      (by with_unfolding_all decide)
  · exact (((claim_C7 ((runTreeOps_invariant _).2.2) 1).2
        (by with_unfolding_all decide)).2.2.2.1 (0, 5) (2, 7)
        (by with_unfolding_all decide)
        (by with_unfolding_all decide)).trans
      (by with_unfolding_all decide)

theorem claim_C7_counterexample :
    (runTreeOps [TreeOp.ins 0 5, TreeOp.ins 2 7]).findLessThan 1 =
      some (0, 5) ∧
    (runTreeOps [TreeOp.ins 0 5, TreeOp.ins 2 7]).findGreaterThan 1 =
      some (2, 7) ∧
    (1 : ℚ) - 0 = 2 - 1 ∧
    (runTreeOps [TreeOp.ins 0 5, TreeOp.ins 2 7]).findNearest 1 =
      some (2, 7) := by
  with_unfolding_all decide

/-- Claim C8: on every reachable accumulator state and `from < to`,
`set(from, to, amount)` leaves the effective intensity unchanged at every
position below `from`. -/
theorem claim_C8 (ops : List RangeOp) (fromKey toKey amount : ℚ)
    (hft : fromKey < toKey) :
    ∀ x, x < fromKey →
      intensityAt (RangeList.toArray
        (RangeList.set (runRangeOps ops) fromKey toKey amount)) x =
        intensityAt (RangeList.toArray (runRangeOps ops)) x := by
  obtain ⟨hb, _⟩ := runRangeOps_invariant ops
  intro x hx
  obtain ⟨hb2, hint⟩ := set_spec hb amount hft
  rw [RangeList.toArray, RangeList.toArray,
    intensityAt_eq_aux (AVLTree.sorted_inorder hb2),
    intensityAt_eq_aux (AVLTree.sorted_inorder hb), hint x,
    if_neg (fun hc => absurd hx (not_lt.mpr hc.1))]

theorem claim_C8_witness :
    (0 : ℚ) < 1 ∧
    intensityAt (RangeList.toArray
      (RangeList.set (runRangeOps [RangeOp.add (-2) 2 3]) 0 1 5)) (-1) =
      intensityAt (RangeList.toArray (runRangeOps [RangeOp.add (-2) 2 3]))
        (-1) :=
  ⟨by norm_num,
   claim_C8 [RangeOp.add (-2) 2 3] 0 1 5 (by norm_num) (-1) (by norm_num)⟩

/-- Claim C9: inserting a key that is already stored in a reachable tree
coincides with the in-place value update: the keys, shape and cached heights
are unchanged and the in-order list only has the value at `k` replaced. -/
theorem claim_C9 (ops : List TreeOp) {k : ℚ} (v : ℚ)
    (hk : k ∈ AVLTree.keysList (runTreeOps ops)) :
    AVLTree.insert (runTreeOps ops) k v =
      AVLTree.update (runTreeOps ops) k v ∧
    AVLTree.shapeHeights (AVLTree.insert (runTreeOps ops) k v) =
      AVLTree.shapeHeights (runTreeOps ops) ∧
    (AVLTree.insert (runTreeOps ops) k v).inOrderTraversal =
      mapValueAt k v (runTreeOps ops).inOrderTraversal := by
  obtain ⟨h1, h2, h3⟩ := runTreeOps_invariant ops
  have heq : AVLTree.insertNode (runTreeOps ops) k v =
      AVLTree.update (runTreeOps ops) k v :=
    AVLTree.insert_existing_eq_update h1 h2 h3 v hk
  refine ⟨heq, ?_, ?_⟩
  · rw [AVLTree.insert, heq, AVLTree.shapeHeights_update]
  · rw [AVLTree.insert, heq, AVLTree.inorder_update h3]

theorem claim_C9_witness :
    AVLTree.insert (runTreeOps [TreeOp.ins 1 2]) 1 5 =
      AVLTree.update (runTreeOps [TreeOp.ins 1 2]) 1 5 ∧
    AVLTree.shapeHeights (AVLTree.insert (runTreeOps [TreeOp.ins 1 2]) 1 5) =
      AVLTree.shapeHeights (runTreeOps [TreeOp.ins 1 2]) ∧
    (AVLTree.insert (runTreeOps [TreeOp.ins 1 2]) 1 5).inOrderTraversal =
      mapValueAt 1 5 (runTreeOps [TreeOp.ins 1 2]).inOrderTraversal :=
  claim_C9 [TreeOp.ins 1 2] 5 (by with_unfolding_all decide)

/-- Claim C10: `getKeysInRange(from, to)` lists each stored key of
`[from, to]` exactly once and nothing else, in some order. -/
theorem claim_C10 {t : AVLTree} (hb : AVLTree.BST t) (fromKey toKey k : ℚ) :
    (t.getKeysInRange fromKey toKey).count k =
      if k ∈ AVLTree.keysList t ∧ fromKey ≤ k ∧ k ≤ toKey then 1 else 0 := by
  rw [(AVLTree.getKeysInRange_perm hb fromKey toKey).count_eq]
  by_cases hm : k ∈ AVLTree.keysList t ∧ fromKey ≤ k ∧ k ≤ toKey
  · rw [if_pos hm]
    apply List.count_eq_one_of_mem
    · exact (AVLTree.nodup_keysList hb).filter _
    · exact List.mem_filter.mpr ⟨hm.1, by simp [hm.2.1, hm.2.2]⟩
  · rw [if_neg hm]
    apply List.count_eq_zero_of_not_mem
    intro hc
    obtain ⟨h1, h2⟩ := List.mem_filter.mp hc
    exact hm ⟨h1, by simpa using h2⟩

theorem claim_C10_witness :
    ((runTreeOps [TreeOp.ins 1 1]).getKeysInRange 0 2).count 1 =
      if (1 : ℚ) ∈ AVLTree.keysList (runTreeOps [TreeOp.ins 1 1]) ∧
          (0 : ℚ) ≤ 1 ∧ (1 : ℚ) ≤ 2 then 1 else 0 :=
  claim_C10 ((runTreeOps_invariant _).2.2) 0 2 1
